import Mathlib

set_option maxRecDepth 100000

/-!
Verification of the nv-cli plan/parse/execute/fix-loop core.

This file is a shallow embedding, in Lean, of the agent core of the nv-cli
repository: the planner's JSON-recovery procedure (`nvcli/agent/planner.py`,
`_parse_plan_json`), the tool registry (`nvcli/agent/tools.py`: `read_file`,
`write_file`, `run_cmd`, the pending-write table), the executor
(`nvcli/agent/executor.py`: `_execute_tool`, `execute_plan`) and the fix loop
(`nvcli/commands/run.py`, `_fix_loop`).

Modelling conventions:
- Python strings are `String`/`List Char`; machine IO (files, subprocesses,
  prompts) is passed in explicitly as state and oracle parameters.
- Fallible code returns `Option`; a raised-and-propagated Python exception is
  `none`.
- `json.loads` is modelled by a recursive-descent JSON parser (`jsonLoads`)
  restricted to integer numerals; float literals and `\u` escapes never occur
  in the inputs the theorems quantify over.
-/

/-! ## Small Python-flavoured string helpers -/

/-- The whitespace class used by `str.strip`, `\s` and `str.split` (the common
ASCII part). -/
def isWsChar (c : Char) : Bool := c == ' ' || c == '\t' || c == '\n' || c == '\r'

def skipWsL (cs : List Char) : List Char := cs.dropWhile isWsChar

/-- Python `str.strip()` on a character list. -/
def pyStripL (cs : List Char) : List Char :=
  ((cs.dropWhile isWsChar).reverse.dropWhile isWsChar).reverse

/-- Python `str.strip()`. -/
def pyStrip (s : String) : String := String.mk (pyStripL s.data)

/-- Python slicing `s[:n]`. -/
def pySlice (s : String) (n : Nat) : String := String.mk (s.data.take n)

/-- Helper for `pySplitlines`: the pending line is accumulated in reverse. -/
def splitlinesAux (acc : List Char) : List Char → List (List Char)
  | [] => if acc.isEmpty then [] else [acc.reverse]
  | '\r' :: '\n' :: r => acc.reverse :: splitlinesAux [] r
  | '\r' :: r => acc.reverse :: splitlinesAux [] r
  | '\n' :: r => acc.reverse :: splitlinesAux [] r
  | c :: r => splitlinesAux (c :: acc) r

/-- Python `str.splitlines()` for the line breaks `\n`, `\r\n` and `\r`
(the exotic Unicode line breaks Python also splits on are outside the model).
A trailing line break closes the last line without opening an empty one. -/
def pySplitlinesL (cs : List Char) : List (List Char) := splitlinesAux [] cs

/-- Python `str.splitlines()`. -/
def pySplitlines (s : String) : List String := (pySplitlinesL s.data).map String.mk

/-- Python `"\n".join(lines)`. -/
def joinNL (lines : List String) : String := String.intercalate "\n" lines

/-- First whitespace-separated token of a Python string (`s.split()[0]`, with
`""` for a token-free string, a case the modelled claims never reach). -/
def firstToken (s : String) : String :=
  String.mk ((s.data.dropWhile isWsChar).takeWhile (fun c => !isWsChar c))

/-- Python `s.startswith(p)`: literal string-prefix test (structural, over
the character lists). -/
def pyStartsWith (s p : String) : Bool := p.data.isPrefixOf s.data

/-- Python dict assignment `d[k] = v` on an insertion-ordered association
list: replaces in place if the key is present, appends otherwise. -/
def upsert {α : Type} (k : String) (v : α) : List (String × α) → List (String × α)
  | [] => [(k, v)]
  | (k', v') :: t => if k' = k then (k, v) :: t else (k', v') :: upsert k v t

/-- Python `d.pop(k, None)` on an association list. -/
def popKey {α : Type} (k : String) : List (String × α) → List (String × α)
  | [] => []
  | (k', v') :: t => if k' = k then t else (k', v') :: popKey k t

/-! ## JSON values and a model of `json.loads`

`_parse_plan_json` feeds the brace-delimited span of the model reply to
`json.loads`.  The parser below is the model of that call: recursive descent
with a fuel argument for totality, building objects with Python-dict
semantics (insertion order, duplicate keys collapsed by `upsert`). -/

/-- JSON values as produced by the Python json module (integer numerals only;
floats never occur in the plan JSON the claims are about). -/
inductive Json where
  | null
  | bool (b : Bool)
  | num (n : Int)
  | str (s : String)
  | arr (elements : List Json)
  | obj (members : List (String × Json))

/-- Parser mode: one value, the items of an array after `[`, or the fields of
an object after `{`. -/
inductive PMode where
  | value
  | items
  | fields

/-- Parser intermediate result, tagged by mode. -/
inductive PRes where
  | v (j : Json)
  | vs (l : List Json)
  | fs (l : List (String × Json))

def isDigitChar (c : Char) : Bool := '0' ≤ c && c ≤ '9'

def spanDigits : List Char → List Char × List Char
  | [] => ([], [])
  | c :: r =>
    if isDigitChar c then
      let p := spanDigits r
      (c :: p.1, p.2)
    else ([], c :: r)

def digitVal (c : Char) : Nat := c.toNat - 48

def valOfDigits (ds : List Char) : Nat := ds.foldl (fun a c => a * 10 + digitVal c) 0

/-- Body of a JSON string after the opening quote: content plus what follows
the closing quote.  Raw control characters are rejected, as in strict
`json.loads`; escape sequences are outside the model (the plan JSON the
claims quantify over renders without escapes). -/
def parseStrBody : List Char → Option (List Char × List Char)
  | [] => none
  | c :: r =>
    if c = '"' then some ([], r)
    else if c = '\\' then none
    else if c.toNat < 32 then none
    else (parseStrBody r).map (fun p => (c :: p.1, p.2))

def stripPre : List Char → List Char → Option (List Char)
  | [], cs => some cs
  | p :: ps, c :: cs => if c = p then stripPre ps cs else none
  | _ :: _, [] => none

/-- A JSON integer numeral: optional minus, digits, no leading zero (float
literals are outside the model; plan JSON carries integers). -/
def parseNumL (cs : List Char) : Option (Int × List Char) :=
  let neg : Bool := cs.head? = some '-'
  let cs1 : List Char := if cs.head? = some '-' then cs.tail else cs
  let p := spanDigits cs1
  if p.1 = [] then none
  else if p.1.head? = some '0' ∧ 2 ≤ p.1.length then none
  else
    let n : Nat := valOfDigits p.1
    some (if neg then -(n : Int) else (n : Int), p.2)

/-- Python-dict construction from parsed object fields, in order. -/
def dictify (l : List (String × Json)) : List (String × Json) :=
  l.foldl (fun acc kv => upsert kv.1 kv.2 acc) []

/-- The recursive-descent JSON parser, structural on the fuel argument. -/
def parseStep : Nat → PMode → List Char → Option (PRes × List Char)
  | 0, _, _ => none
  | Nat.succ f, PMode.value, cs =>
    match skipWsL cs with
    | [] => none
    | c :: r =>
      if c = '"' then (parseStrBody r).map (fun p => (PRes.v (Json.str (String.mk p.1)), p.2))
      else if c = 't' then
        (stripPre ['r', 'u', 'e'] r).map (fun rest => (PRes.v (Json.bool true), rest))
      else if c = 'f' then
        (stripPre ['a', 'l', 's', 'e'] r).map (fun rest => (PRes.v (Json.bool false), rest))
      else if c = 'n' then
        (stripPre ['u', 'l', 'l'] r).map (fun rest => (PRes.v Json.null, rest))
      else if c = '[' then
        match parseStep f PMode.items r with
        | some (PRes.vs l, rest) => some (PRes.v (Json.arr l), rest)
        | _ => none
      else if c = '{' then
        match parseStep f PMode.fields r with
        | some (PRes.fs l, rest) => some (PRes.v (Json.obj (dictify l)), rest)
        | _ => none
      else (parseNumL (c :: r)).map (fun p => (PRes.v (Json.num p.1), p.2))
  | Nat.succ f, PMode.items, cs =>
    match skipWsL cs with
    | [] => none
    | c :: r =>
      if c = ']' then some (PRes.vs [], r)
      else
        match parseStep f PMode.value (c :: r) with
        | some (PRes.v j, rest) =>
          (match skipWsL rest with
           | [] => none
           | c2 :: r2 =>
             if c2 = ',' then
               match parseStep f PMode.items r2 with
               | some (PRes.vs l, rest2) => some (PRes.vs (j :: l), rest2)
               | _ => none
             else if c2 = ']' then some (PRes.vs [j], r2)
             else none)
        | _ => none
  | Nat.succ f, PMode.fields, cs =>
    match skipWsL cs with
    | [] => none
    | c :: r =>
      if c = '}' then some (PRes.fs [], r)
      else if c = '"' then
        match parseStrBody r with
        | some (kcs, rest) =>
          (match skipWsL rest with
           | [] => none
           | c2 :: r2 =>
             if c2 = ':' then
               match parseStep f PMode.value r2 with
               | some (PRes.v j, rest2) =>
                 (match skipWsL rest2 with
                  | [] => none
                  | c3 :: r3 =>
                    if c3 = ',' then
                      match parseStep f PMode.fields r3 with
                      | some (PRes.fs l, rest3) => some (PRes.fs ((String.mk kcs, j) :: l), rest3)
                      | _ => none
                    else if c3 = '}' then some (PRes.fs [(String.mk kcs, j)], r3)
                    else none)
               | _ => none
             else none)
        | none => none
      else none

/-- Model of `json.loads`: parse one value, allow only trailing whitespace. -/
def jsonLoads (cs : List Char) : Option Json :=
  match parseStep (cs.length + 1) PMode.value cs with
  | some (PRes.v j, rest) => if skipWsL rest = [] then some j else none
  | _ => none

/-! ## The plan-recovery pipeline of `_parse_plan_json`

The source strips markdown fences via two `re.sub(..., flags=re.MULTILINE)`
calls, locates the greedy `\{.*\}` span, feeds it to `json.loads` and builds
the `Plan`.  Both substitutions are modelled operationally (leftmost match,
greedy with the backtracking the fixed patterns admit), with a fuel argument
for totality; fuel `≥` input length is always enough since every match
consumes at least the three backticks. -/

/-- One pass of `re.sub(r"^```(?:json)?\s*", "", text, flags=re.MULTILINE)`.
The boolean tracks whether the current position is at a line start. -/
def sub1 : Nat → Bool → List Char → List Char
  | 0, _, cs => cs
  | _ + 1, _, [] => []
  | f + 1, atStart, c :: t =>
    match (if atStart then stripPre ['`', '`', '`'] (c :: t) else none) with
    | some r =>
      let r1 := match stripPre ['j', 's', 'o', 'n'] r with
        | some r' => r'
        | none => r
      let ws := r1.takeWhile isWsChar
      let rest := r1.dropWhile isWsChar
      let nl : Bool := match ws.getLast? with
        | some ch => ch = '\n'
        | none => false
      sub1 f nl rest
    | none => c :: sub1 f (c = '\n') t

/-- A match of `\s*```\s*$` starting exactly at the head of `cs`: maximal
whitespace, three backticks, then whitespace up to an end of line (the
trailing `\s*` backtracks to just before the last newline it swallowed when
the text continues).  Returns what follows the match. -/
def sub2Attempt (cs : List Char) : Option (List Char) :=
  let r1 := cs.dropWhile isWsChar
  match stripPre ['`', '`', '`'] r1 with
  | none => none
  | some r2 =>
    let ws2 := r2.takeWhile isWsChar
    let r3 := r2.dropWhile isWsChar
    match r3 with
    | [] => some []
    | _ =>
      if ws2.any (· = '\n') then
        some ('\n' :: (ws2.reverse.takeWhile (· ≠ '\n')).reverse ++ r3)
      else none

/-- One pass of `re.sub(r"\s*```\s*$", "", text, flags=re.MULTILINE)`:
leftmost-match scanning with `sub2Attempt` at every position. -/
def sub2 : Nat → List Char → List Char
  | 0, cs => cs
  | _ + 1, [] => []
  | f + 1, c :: t =>
    match sub2Attempt (c :: t) with
    | some rest => sub2 f rest
    | none => c :: sub2 f t

/-- The greedy `re.search(r"\{.*\}", text, re.DOTALL)` span: from the first
`{` to the last `}` after it, `none` when no such span exists. -/
def extractBrace (cs : List Char) : Option (List Char) :=
  let s1 := cs.dropWhile (· ≠ '{')
  let s2 := (s1.reverse.dropWhile (· ≠ '}')).reverse
  if s2.isEmpty then none else some s2

/-! ## Plan data model

`PlanStep` and `Plan` from `nvcli/agent/planner.py`, with the dataclass-declared
field types (`n : int`, `description : str`, `tool : str`, `args : dict`);
`buildPlan` below requires the JSON to deliver those types — Python would
store ill-typed values unchecked, a case no claim exercises.  `raw_context`
is display/debug data attached after parsing and is not modelled. -/

structure PlanStep where
  n : Int
  description : String
  tool : String
  args : List (String × Json)

structure Plan where
  summary : String
  steps : List PlanStep

/-- One entry of the parsed `steps` list: `n`, `description` and `tool` are
required (a missing one raises a key error in the source and the parse
fails); `args` defaults to an empty mapping. -/
def buildStep (j : Json) : Option PlanStep :=
  match j with
  | Json.obj sms =>
    match List.lookup "n" sms, List.lookup "description" sms, List.lookup "tool" sms with
    | some (Json.num n), some (Json.str d), some (Json.str t) =>
      match List.lookup "args" sms with
      | none => some ⟨n, d, t, []⟩
      | some (Json.obj ams) => some ⟨n, d, t, ams⟩
      | some _ => none
    | _, _, _ => none
  | _ => none

/-- Build a `Plan` from the parsed JSON: `summary` defaults to
`"No summary"`, `steps` to the empty list. -/
def buildPlan (j : Json) : Option Plan :=
  match j with
  | Json.obj ms =>
    let sm : Option String :=
      match List.lookup "summary" ms with
      | none => some "No summary"
      | some (Json.str s) => some s
      | some _ => none
    let stl : Option (List Json) :=
      match List.lookup "steps" ms with
      | none => some []
      | some (Json.arr l) => some l
      | some _ => none
    match sm, stl with
    | some s, some l => (l.mapM buildStep).map (fun steps => ⟨s, steps⟩)
    | _, _ => none
  | _ => none

/-- Model of `_parse_plan_json`: strip, defence the markdown, strip again,
take the greedy brace span, `json.loads` it and build the `Plan`; `none` is a
raised error (no span, malformed JSON, missing step key). -/
def parse_plan_json (raw : String) : Option Plan :=
  let t1 := pyStripL raw.data
  let t2 := sub1 t1.length true t1
  let t3 := sub2 t2.length t2
  let t4 := pyStripL t3
  match extractBrace t4 with
  | none => none
  | some span => (jsonLoads span).bind buildPlan

/-! ## Tool registry model (`nvcli/agent/tools.py`)

Filesystem and the pending-write table are explicit state; `Path.resolve` is
an abstract map `resolve` from path strings to resolved-path keys; operator
answers and subprocess outcomes are oracle parameters.  Rendering (rich
output, diff display) is ignored. -/

/-- Process state: on-disk contents keyed by resolved path, plus the
`_pending_writes` table (resolved path ↦ (original, new), insertion
ordered, Python-dict semantics via `upsert`). -/
structure World where
  fs : String → Option String
  pending : List (String × String × String)

/-- `read_file`: missing-file sentinel, else the content, truncated to 500
lines with a literal notice when longer.  (The `OSError` sentinel branch is
unreachable on the modelled filesystem.) -/
def read_file (resolve : String → String) (fs : String → Option String) (path : String) :
    String :=
  match fs (resolve path) with
  | none => "[File not found: " ++ path ++ "]"
  | some content =>
    let lines := pySplitlines content
    if lines.length > 500 then
      joinNL (lines.take 500) ++ "\n... [truncated, " ++ toString (lines.length - 500)
        ++ " more lines]"
    else content

/-- Result of `write_file`: status string, updated state, and whether the
confirmation prompt was shown. -/
structure WriteRes where
  output : String
  world : World
  asked : Bool

/-- `write_file`: snapshot the current content, no-op when identical, ask for
confirmation unless `skip_confirm`, then write and record the pending entry
keyed by the resolved path. -/
def write_file (resolve : String → String) (w : World) (path content : String)
    (skipConfirm confirmAnswer : Bool) : WriteRes :=
  let original := (w.fs (resolve path)).getD ""
  if original = content then ⟨"No changes needed for " ++ path, w, false⟩
  else if skipConfirm then
    ⟨"Written: " ++ path,
     ⟨fun k => if k = resolve path then some content else w.fs k,
      upsert (resolve path) (original, content) w.pending⟩, false⟩
  else if confirmAnswer then
    ⟨"Written: " ++ path,
     ⟨fun k => if k = resolve path then some content else w.fs k,
      upsert (resolve path) (original, content) w.pending⟩, true⟩
  else ⟨"Skipped: " ++ path, w, true⟩

/-- `get_pending_diff`: look up the resolved path in the pending table. -/
def get_pending_diff (resolve : String → String) (w : World) (path : String) :
    Option (String × String) :=
  List.lookup (resolve path) w.pending

/-- `clear_pending`: clear everything, or pop one resolved path. -/
def clear_pending (resolve : String → String) (w : World) (path : Option String) :
    List (String × String × String) :=
  match path with
  | none => []
  | some q => popKey (resolve q) w.pending

/-- What the spawned subprocess does: `communicate` results (return code as
`Option` for a `None` return code), a missing executable, or another spawn
failure. -/
inductive SpawnOutcome where
  | ok (rc : Option Int) (stdoutRaw stderrRaw : String)
  | notFound
  | failed (msg : String)

/-- Oracle environment for one `run_cmd` call: the configured allowlist, the
operator's answer if prompted, and the subprocess outcome. -/
structure CmdEnv where
  allowlist : List String
  confirmAnswer : Bool
  spawn : SpawnOutcome

/-- Result of `run_cmd`, extended with whether the confirmation prompt was
shown and whether a subprocess was spawned. -/
structure CmdRes where
  exitCode : Int
  stdout : String
  stderr : String
  asked : Bool
  spawned : Bool

/-- The `run_cmd` tool (source name `run_cmd`): allowlist check by literal
string-prefix match, confirmation unless skipped or allowlisted, declined
commands return `(0, "", "skipped")`, spawned commands return the normalized
return code with decoded-and-stripped output. -/
def runCmd (env : CmdEnv) (command : String) (capture : Bool) (skipConfirm : Bool) : CmdRes :=
  let inAllow := env.allowlist.any (fun a => pyStartsWith command a)
  let asked := !skipConfirm && !inAllow
  if asked && !env.confirmAnswer then ⟨0, "", "skipped", asked, false⟩
  else
    match env.spawn with
    | SpawnOutcome.ok rc out err =>
      let ec : Int := match rc with
        | none => 0
        | some c => if c = 0 then 0 else c
      ⟨ec, if capture then pyStrip out else "", if capture then pyStrip err else "", asked, true⟩
    | SpawnOutcome.notFound => ⟨127, "", "Command not found: " ++ firstToken command, asked, true⟩
    | SpawnOutcome.failed msg => ⟨1, "", msg, asked, true⟩

/-- The keys of `TOOL_MAP`. -/
def toolNames : List String := ["read_file", "write_file", "search_files", "run_cmd"]

/-! ## Executor model (`nvcli/agent/executor.py`) -/

/-- `step.args.get(key, default)`, for string-valued arguments (non-string
argument values would flow into the tools unconverted in the source; no claim
exercises that, and the theorems assume string-typed arguments). -/
def argGetStr (args : List (String × Json)) (k dflt : String) : String :=
  match List.lookup k args with
  | some (Json.str s) => s
  | some _ => dflt
  | none => dflt

/-- Oracle environment for one dispatched step: `run_cmd` call environment,
the operator's answer to a `write_file` diff prompt, and the output the
`search_files` glob would produce (its internals are not claim-relevant). -/
structure StepEnv where
  cmd : CmdEnv
  writeConfirm : Bool
  searchOut : String

/-- Result of `_execute_tool`, extended with whether the dispatched command
prompted for confirmation and whether the real write tool was invoked. -/
structure DispatchRes where
  output : String
  world : World
  cmdAsked : Bool
  wroteCalled : Bool

/-- `_execute_tool`: `TOOL_MAP` lookup (unknown tools get a sentinel), then
the per-tool branches of the source dispatch chain.  The final
`"not yet implemented"` branch is kept even though every `TOOL_MAP` key is
matched by an earlier branch. -/
def executeTool (resolve : String → String) (env : StepEnv) (w : World) (step : PlanStep) :
    DispatchRes :=
  if (toolNames.contains step.tool) = false then
    ⟨"Unknown tool: " ++ step.tool, w, false, false⟩
  else if step.tool = "read_file" then
    ⟨read_file resolve w.fs (argGetStr step.args "path" ""), w, false, false⟩
  else if step.tool = "write_file" then
    let contentHint := argGetStr step.args "content_hint" ""
    let path := argGetStr step.args "path" ""
    let content := argGetStr step.args "content" contentHint
    if content = "" ∨ content = contentHint then
      ⟨"Skipped write_file(" ++ path ++ "): content generation requires model call (Task 5)",
       w, false, false⟩
    else
      let wr := write_file resolve w path content false env.writeConfirm
      ⟨wr.output, wr.world, false, true⟩
  else if step.tool = "search_files" then ⟨env.searchOut, w, false, false⟩
  else if step.tool = "run_cmd" then
    let r := runCmd env.cmd (argGetStr step.args "command" "") true false
    ⟨"exit_code=" ++ toString r.exitCode ++ "\nstdout=" ++ pySlice r.stdout 500
      ++ "\nstderr=" ++ pySlice r.stderr 200, w, r.asked, false⟩
  else ⟨"Tool '" ++ step.tool ++ "' not yet implemented", w, false, false⟩

/-- One per-step record of `execute_plan`. -/
structure ExecutionResult where
  step : PlanStep
  output : String
  skipped : Bool
  aborted : Bool

/-- Operator choice at a step prompt. -/
inductive Choice where
  | y
  | n
  | a
deriving DecidableEq

/-- The step loop of `execute_plan`: dry-run records every step as skipped;
otherwise the operator chooses abort (record and stop), skip (record and
continue) or continue (dispatch and record).  `i` is the 0-based position
used to index the oracles. -/
def execSteps (resolve : String → String) (envOf : Nat → StepEnv) (choiceOf : Nat → Choice)
    (dryRun : Bool) : World → Nat → List PlanStep → List ExecutionResult × World
  | w, _, [] => ([], w)
  | w, i, step :: rest =>
    if dryRun then
      let p := execSteps resolve envOf choiceOf dryRun w (i + 1) rest
      (⟨step, "dry-run", true, false⟩ :: p.1, p.2)
    else
      match choiceOf i with
      | Choice.a => ([⟨step, "aborted", false, true⟩], w)
      | Choice.n =>
        let p := execSteps resolve envOf choiceOf dryRun w (i + 1) rest
        (⟨step, "skipped", true, false⟩ :: p.1, p.2)
      | Choice.y =>
        let d := executeTool resolve (envOf i) w step
        let p := execSteps resolve envOf choiceOf dryRun d.world (i + 1) rest
        (⟨step, d.output, false, false⟩ :: p.1, p.2)

/-- `execute_plan` (the changed-files summary it prints is display-only and
not modelled). -/
def execute_plan (resolve : String → String) (envOf : Nat → StepEnv) (choiceOf : Nat → Choice)
    (plan : Plan) (dryRun : Bool) (w : World) : List ExecutionResult × World :=
  execSteps resolve envOf choiceOf dryRun w 0 plan.steps

/-! ## Fix loop model (`nvcli/commands/run.py`, `_fix_loop`) -/

/-- Oracles for one fix-loop iteration: the planner outcome (`none` is a
`ValueError`/`RuntimeError` from `generate_plan`), the operator's answer to
"Execute fix plan?", the executor oracles for the plan's steps, and the
environment of the rerun of the original command.  The failure output fed to
the next planning task is subsumed by indexing the oracles by iteration. -/
structure FixIterEnv where
  planGen : Option Plan
  confirmExec : Bool
  stepEnvs : Nat → StepEnv
  choices : Nat → Choice
  rerun : CmdEnv

/-- How a fix loop run ended. -/
inductive FixOutcome where
  | planFailed
  | cancelled
  | fixed
  | exhausted
deriving DecidableEq

/-- The iteration loop of `_fix_loop`: `remaining` counts iterations still
allowed, `done` counts completed generate/execute/rerun cycles.  A planner
failure or a declined plan aborts the whole loop; a rerun with exit code 0
stops with success; exhausting the budget reports failure. -/
def fixLoopAux (resolve : String → String) (envs : Nat → FixIterEnv) (origCmd : String) :
    Nat → Nat → World → FixOutcome × Nat × World
  | 0, done, w => (FixOutcome.exhausted, done, w)
  | Nat.succ k, done, w =>
    let e := envs done
    match e.planGen with
    | none => (FixOutcome.planFailed, done, w)
    | some plan =>
      if e.confirmExec = false then (FixOutcome.cancelled, done, w)
      else
        let p := execute_plan resolve e.stepEnvs e.choices plan false w
        let r := runCmd e.rerun origCmd true true
        if r.exitCode = 0 then (FixOutcome.fixed, done + 1, p.2)
        else fixLoopAux resolve envs origCmd k (done + 1) p.2

/-- `_fix_loop` with its `max_iterations` bound (source default 3). -/
def fixLoop (resolve : String → String) (envs : Nat → FixIterEnv) (origCmd : String)
    (maxIterations : Nat) (w : World) : FixOutcome × Nat × World :=
  fixLoopAux resolve envs origCmd maxIterations 0 w

/-! ## Concrete fixtures shared by the witnesses and counterexamples -/

/-- An inert step environment: empty allowlist, agreeing operator, successful
silent spawn. -/
def env0 : StepEnv := ⟨⟨[], true, SpawnOutcome.ok (some 0) "" ""⟩, true, "found 1 file(s)"⟩

/-- The empty world: no files, no pending writes. -/
def w0 : World := ⟨fun _ => none, []⟩

/-- A step environment whose operator declines everything. -/
def denyEnv : StepEnv := ⟨⟨[], false, SpawnOutcome.ok (some 0) "ok" ""⟩, false, ""⟩

/-- A step environment with `command_allowlist=["pytest"]` and a spawn that
exits 0 printing `out`. -/
def allowEnv : StepEnv := ⟨⟨["pytest"], false, SpawnOutcome.ok (some 0) "out" ""⟩, false, ""⟩

/-- A plan step carrying an unrecognized tool name. -/
def ukStep : PlanStep := ⟨1, "do something odd", "frobnicate", []⟩

/-- A `run_cmd` plan step with a destructive command. -/
def cmdStep : PlanStep := ⟨1, "clean up", "run_cmd", [("command", Json.str "rm -rf tmp")]⟩

/-- A `run_cmd` plan step with an allowlisted test command. -/
def pyStep : PlanStep := ⟨1, "run tests", "run_cmd", [("command", Json.str "pytest -q")]⟩

/-- A `write_file` plan step carrying only a content hint. -/
def wstep : PlanStep :=
  ⟨1, "edit", "write_file", [("path", Json.str "f.py"), ("content_hint", Json.str "add x")]⟩

/-- A `write_file` plan step carrying a literal content distinct from its hint. -/
def wstep2 : PlanStep :=
  ⟨1, "edit", "write_file",
   [("path", Json.str "f.py"), ("content_hint", Json.str "h"), ("content", Json.str "real code")]⟩

/-- A generic read step used to pad concrete plans. -/
def rdStep (i : Int) : PlanStep := ⟨i, "read", "read_file", [("path", Json.str "m.py")]⟩

/-- The 5-step concrete plan of the abort scenario. -/
def plan5 : Plan := ⟨"demo", [rdStep 1, rdStep 2, rdStep 3, rdStep 4, rdStep 5]⟩

/-- Operator choices: continue twice, abort at the third step. -/
def chooser (i : Nat) : Choice := if i < 2 then Choice.y else Choice.a

/-- A fix-loop iteration environment whose planner always succeeds, operator
always confirms, and rerun always exits 1. -/
def fixEnv0 : FixIterEnv :=
  ⟨some ⟨"p", []⟩, true, fun _ => env0, fun _ => Choice.y, ⟨[], true, SpawnOutcome.ok (some 1) "" ""⟩⟩

/-- Characters of a `k`-line file, each line the single character `x`,
separated by `\n` with no trailing newline. -/
def xLines : Nat → List Char
  | 0 => []
  | 1 => ['x']
  | k + 2 => 'x' :: '\n' :: xLines (k + 1)

/-- A `k`-line file, each line the single character `x`. -/
def fileLines (k : Nat) : String := String.mk (xLines k)

/-- A resolver that maps the alias `./f` to `/f` and is the identity
elsewhere. -/
def resolveW (s : String) : String := if s = "./f" then "/f" else s

/-- A world with one file `/f` containing `a`. -/
def worldA : World := ⟨fun p => if p = "/f" then some "a" else none, []⟩

/-- Boolean fidelity guard: the argument `k`, if present, is a string
(non-string argument values would flow untyped through `args.get` in the
source; no claim exercises them). -/
def strOrAbsentB (args : List (String × Json)) (k : String) : Bool :=
  match List.lookup k args with
  | none => true
  | some (Json.str _) => true
  | some _ => false

/-! ## Structured plan documents and their canonical JSON rendering

The round-trip claim quantifies over plan JSON texts with N well-formed step
objects.  `PlanDoc` is the structured form of such a text: an optional
summary and a list of steps, each with `n`, `description`, `tool` and an
optional scalar-valued `args` mapping (the spec's data model: "mapping from
string keys to arbitrary scalar/string values").  `renderDoc` produces the
canonical compact JSON text of a document. -/

structure StepDoc where
  n : Int
  description : String
  tool : String
  args : Option (List (String × Json))

structure PlanDoc where
  summary : Option String
  steps : List StepDoc

/-- Characters legal in the modelled JSON strings: printable, no quote, no
backslash (so no escapes are needed), no backtick (so fence stripping cannot
fire inside the document). -/
def safeChar (c : Char) : Bool :=
  !(c = '"') && !(c = '\\') && !(c = '`') && 32 ≤ c.toNat

def safeStr (s : String) : Bool := s.data.all safeChar

/-- A scalar JSON value with safe string content. -/
def scalarSafe : Json → Bool
  | Json.null => true
  | Json.bool _ => true
  | Json.num _ => true
  | Json.str s => safeStr s
  | Json.arr _ => false
  | Json.obj _ => false

/-- Well-formed `args` mapping: safe keys, scalar safe values, distinct keys. -/
def wfArgs (ms : List (String × Json)) : Prop :=
  (∀ p ∈ ms, safeStr p.1 = true ∧ scalarSafe p.2 = true) ∧ (ms.map Prod.fst).Nodup

instance (ms : List (String × Json)) : Decidable (wfArgs ms) :=
  inferInstanceAs (Decidable
    ((∀ p ∈ ms, safeStr p.1 = true ∧ scalarSafe p.2 = true) ∧ (ms.map Prod.fst).Nodup))

/-- Well-formedness of an optional `args` mapping. -/
def argsWfOpt : Option (List (String × Json)) → Prop
  | none => True
  | some ms => wfArgs ms

instance (o : Option (List (String × Json))) : Decidable (argsWfOpt o) :=
  match o with
  | none => isTrue trivial
  | some ms => (inferInstance : Decidable (wfArgs ms))

def wfStep (s : StepDoc) : Prop :=
  safeStr s.description = true ∧ safeStr s.tool = true ∧ argsWfOpt s.args

instance (s : StepDoc) : Decidable (wfStep s) :=
  inferInstanceAs (Decidable (safeStr s.description = true ∧ safeStr s.tool = true
    ∧ argsWfOpt s.args))

/-- Well-formedness of an optional summary. -/
def sumWfOpt : Option String → Prop
  | none => True
  | some sm => safeStr sm = true

instance (o : Option String) : Decidable (sumWfOpt o) :=
  match o with
  | none => isTrue trivial
  | some sm => (inferInstance : Decidable (safeStr sm = true))

def wfDoc (d : PlanDoc) : Prop := sumWfOpt d.summary ∧ ∀ s ∈ d.steps, wfStep s

instance (d : PlanDoc) : Decidable (wfDoc d) :=
  inferInstanceAs (Decidable (sumWfOpt d.summary ∧ ∀ s ∈ d.steps, wfStep s))

/-- Decimal digit character. -/
def chrDigit : Nat → Char
  | 0 => '0'
  | 1 => '1'
  | 2 => '2'
  | 3 => '3'
  | 4 => '4'
  | 5 => '5'
  | 6 => '6'
  | 7 => '7'
  | 8 => '8'
  | 9 => '9'
  | _ => '0'

/-- Digit-producing loop: prepends the decimal digits of `n` to `acc`,
most significant first (`fuel` bounds the digit count). -/
def natChars : Nat → Nat → List Char → List Char
  | 0, _, acc => acc
  | f + 1, n, acc =>
    if n < 10 then chrDigit n :: acc
    else natChars f (n / 10) (chrDigit (n % 10) :: acc)

/-- Decimal digits of a natural number, most significant first. -/
def natDigitsChars (n : Nat) : List Char := natChars (n + 1) n []

/-- Decimal rendering of an integer. -/
def renderInt (i : Int) : List Char :=
  if i < 0 then '-' :: natDigitsChars i.natAbs else natDigitsChars i.toNat

/-- A JSON string literal (no escapes; content is `safeChar`-restricted). -/
def renderStr (s : String) : List Char := '"' :: s.data ++ ['"']

/-- A scalar JSON value (the catch-all renders `null`; well-formedness keeps
containers out of scalar positions). -/
def renderScalar : Json → List Char
  | Json.null => ['n', 'u', 'l', 'l']
  | Json.bool true => ['t', 'r', 'u', 'e']
  | Json.bool false => ['f', 'a', 'l', 's', 'e']
  | Json.num i => renderInt i
  | Json.str s => renderStr s
  | Json.arr _ => ['n', 'u', 'l', 'l']
  | Json.obj _ => ['n', 'u', 'l', 'l']

/-- Comma-joined `"key":value` members (no surrounding braces), values
rendered by `rv`. -/
def renderFieldsWith (rv : Json → List Char) : List (String × Json) → List Char
  | [] => []
  | [(k, v)] => renderStr k ++ ':' :: rv v
  | (k, v) :: rest => renderStr k ++ ':' :: rv v ++ ',' :: renderFieldsWith rv rest

/-- A depth-one JSON value: a scalar, or an object of scalars. -/
def renderVal1 : Json → List Char
  | Json.obj ms => '{' :: renderFieldsWith renderScalar ms ++ ['}']
  | v => renderScalar v

/-- Comma-joined `"key":value` members with depth-one values. -/
def renderFields : List (String × Json) → List Char := renderFieldsWith renderVal1

/-- The JSON object fields of one step, in the canonical order. -/
def stepFields (s : StepDoc) : List (String × Json) :=
  ("n", Json.num s.n) :: ("description", Json.str s.description)
    :: ("tool", Json.str s.tool)
    :: (match s.args with
        | none => []
        | some ms => [("args", Json.obj ms)])

/-- The JSON value of one step. -/
def stepJson (s : StepDoc) : Json := Json.obj (stepFields s)

/-- One rendered step object. -/
def renderStepJ (s : StepDoc) : List Char := '{' :: renderFields (stepFields s) ++ ['}']

/-- Comma-joined rendered steps. -/
def renderSteps : List StepDoc → List Char
  | [] => []
  | [s] => renderStepJ s
  | s :: rest => renderStepJ s ++ ',' :: renderSteps rest

/-- The JSON object fields of the whole document. -/
def docFields (d : PlanDoc) : List (String × Json) :=
  (match d.summary with
   | some sm => [("summary", Json.str sm)]
   | none => []) ++ [("steps", Json.arr (d.steps.map stepJson))]

/-- The JSON value of the whole document. -/
def docJson (d : PlanDoc) : Json := Json.obj (docFields d)

/-- The rendered document body (between the braces). -/
def docBody (d : PlanDoc) : List Char :=
  (match d.summary with
   | some sm => renderStr "summary" ++ ':' :: renderStr sm ++ [',']
   | none => []) ++ renderStr "steps" ++ ':' :: '[' :: renderSteps d.steps ++ [']']

/-- The canonical compact JSON text of a plan document. -/
def renderDoc (d : PlanDoc) : List Char := '{' :: docBody d ++ ['}']

/-- The `Plan` that `_parse_plan_json` is claimed to recover from a rendered
document. -/
def planOfDoc (d : PlanDoc) : Plan :=
  ⟨(match d.summary with
    | some sm => sm
    | none => "No summary"),
   d.steps.map (fun s => ⟨s.n, s.description, s.tool, s.args.getD []⟩)⟩

/-! Fuel bounds: enough fuel for the parser on a rendered document. -/

def bFieldsWith (bv : Json → Nat) : List (String × Json) → Nat
  | [] => 1
  | (_, v) :: t => 1 + bv v + bFieldsWith bv t

def bVal1 : Json → Nat
  | Json.obj ms => 1 + bFieldsWith (fun _ => 1) ms
  | _ => 1

def bFields : List (String × Json) → Nat := bFieldsWith bVal1

def bStep (s : StepDoc) : Nat := 1 + bFields (stepFields s)

def bSteps : List StepDoc → Nat
  | [] => 1
  | s :: t => 1 + bStep s + bSteps t

def bDoc (d : PlanDoc) : Nat := 4 + bSteps d.steps

/-- `true` when the list does not start with a decimal digit (so a numeral
ends exactly where the rendering ends). -/
def noDigitHead : List Char → Bool
  | [] => true
  | c :: _ => !isDigitChar c

/-- Well-formedness of a depth-one value. -/
def val1Wf : Json → Prop
  | Json.obj ms => wfArgs ms
  | v => scalarSafe v = true

/-! ## Sample evaluations of the embedded pipeline -/

theorem jsonLoads_sample_obj : jsonLoads "\x7b\"a\":[1,true,\"x\"],\"b\":null\x7d".data =
    some (Json.obj [("a", Json.arr [Json.num 1, Json.bool true, Json.str "x"]),
      ("b", Json.null)]) := rfl

theorem jsonLoads_sample_neg : jsonLoads "\x7b\"n\": -12 \x7d".data = some (Json.obj [("n", Json.num (-12))]) := rfl

theorem jsonLoads_sample_rest : jsonLoads "\x7b\"a\":1\x7d x".data = none := rfl

theorem parse_plan_json_sample :
    parse_plan_json "```json\n\x7b\"summary\":\"demo\",\"steps\":[\x7b\"n\":1,\"description\":\"read main\",\"tool\":\"read_file\",\"args\":\x7b\"path\":\"main.py\"\x7d\x7d]\x7d\n```" =
    some ⟨"demo", [⟨1, "read main", "read_file", [("path", Json.str "main.py")]⟩]⟩ := rfl

theorem renderDoc_sample :
    parse_plan_json (String.mk (renderDoc
      ⟨some "demo", [⟨1, "read main", "read_file", some [("path", Json.str "main.py")]⟩,
                     ⟨2, "run", "run_cmd", none⟩]⟩)) =
    some ⟨"demo", [⟨1, "read main", "read_file", [("path", Json.str "main.py")]⟩,
                   ⟨2, "run", "run_cmd", []⟩]⟩ := rfl

theorem wfDoc_sample : wfDoc ⟨some "demo", [⟨1, "read main", "read_file", some [("path", Json.str "main.py")]⟩]⟩ := by decide

/-! ## Association-list lemmas for the pending-write table -/

theorem lookup_none_of_key_absent {α : Type} (k : String) :
    ∀ l : List (String × α), k ∉ l.map Prod.fst → List.lookup k l = none := by
  intro l
  induction l with
  | nil => intro _; simp [List.lookup]
  | cons h t ih =>
    obtain ⟨k0, v0⟩ := h
    intro hmem
    simp only [List.map_cons, List.mem_cons, not_or] at hmem
    have hbe : (k == k0) = false := beq_eq_false_iff_ne.mpr hmem.1
    simp [List.lookup, hbe, ih hmem.2]

theorem lookup_upsert_self {α : Type} (k : String) (v : α) :
    ∀ l : List (String × α), List.lookup k (upsert k v l) = some v := by
  intro l
  induction l with
  | nil => simp [upsert, List.lookup]
  | cons h t ih =>
    obtain ⟨k', v'⟩ := h
    by_cases hk : k' = k
    · simp [upsert, hk, List.lookup]
    · have hbe : (k == k') = false := beq_eq_false_iff_ne.mpr (Ne.symm hk)
      simp [upsert, hk, List.lookup, hbe, ih]

theorem lookup_upsert_ne {α : Type} (k k' : String) (v : α) (hne : k' ≠ k) :
    ∀ l : List (String × α), List.lookup k' (upsert k v l) = List.lookup k' l := by
  intro l
  induction l with
  | nil =>
    have hbe : (k' == k) = false := beq_eq_false_iff_ne.mpr hne
    simp [upsert, List.lookup, hbe]
  | cons h t ih =>
    obtain ⟨k0, v0⟩ := h
    by_cases hk : k0 = k
    · subst hk
      have hbe : (k' == k0) = false := beq_eq_false_iff_ne.mpr hne
      simp [upsert, List.lookup, hbe]
    · simp only [upsert, if_neg hk, List.lookup]
      cases hbe : (k' == k0) with
      | true => rfl
      | false => exact ih

theorem lookup_popKey_self {α : Type} (k : String) :
    ∀ l : List (String × α), (l.map Prod.fst).Nodup →
      List.lookup k (popKey k l) = none := by
  intro l
  induction l with
  | nil => intro _; simp [popKey, List.lookup]
  | cons h t ih =>
    obtain ⟨k0, v0⟩ := h
    intro hnd
    simp only [List.map_cons, List.nodup_cons] at hnd
    by_cases hk : k0 = k
    · subst hk
      simp only [popKey, if_pos rfl]
      exact lookup_none_of_key_absent k0 t hnd.1
    · have hbe : (k == k0) = false := beq_eq_false_iff_ne.mpr (Ne.symm hk)
      simp [popKey, hk, List.lookup, hbe, ih hnd.2]

theorem lookup_popKey_ne {α : Type} (k k' : String) (hne : k' ≠ k) :
    ∀ l : List (String × α), List.lookup k' (popKey k l) = List.lookup k' l := by
  intro l
  induction l with
  | nil => simp [popKey]
  | cons h t ih =>
    obtain ⟨k0, v0⟩ := h
    by_cases hk : k0 = k
    · subst hk
      have hbe : (k' == k0) = false := beq_eq_false_iff_ne.mpr hne
      simp [popKey, List.lookup, hbe]
    · simp only [popKey, if_neg hk, List.lookup]
      cases hbe : (k' == k0) with
      | true => rfl
      | false => exact ih

/-! ## Executor lemmas -/

theorem execSteps_length_no_abort (resolve : String → String) (envOf : Nat → StepEnv)
    (choiceOf : Nat → Choice) :
    ∀ (steps : List PlanStep) (w : World) (i0 : Nat),
      (∀ j, choiceOf j ≠ Choice.a) →
      (execSteps resolve envOf choiceOf false w i0 steps).1.length = steps.length := by
  intro steps
  induction steps with
  | nil => intro w i0 _; simp [execSteps]
  | cons s rest ih =>
    intro w i0 hc
    simp only [execSteps, if_neg (Bool.false_ne_true)]
    cases hch : choiceOf i0 with
    | a => exact absurd hch (hc i0)
    | n => simp [ih _ (i0 + 1) hc]
    | y => simp [ih _ (i0 + 1) hc]

theorem execSteps_abort (resolve : String → String) (envOf : Nat → StepEnv)
    (choiceOf : Nat → Choice) :
    ∀ (steps : List PlanStep) (w : World) (i0 k : Nat),
      1 ≤ k → k ≤ steps.length →
      (∀ j, j < k - 1 → choiceOf (i0 + j) ≠ Choice.a) →
      choiceOf (i0 + (k - 1)) = Choice.a →
      ((execSteps resolve envOf choiceOf false w i0 steps).1.map ExecutionResult.step
          = steps.take k) ∧
      ((execSteps resolve envOf choiceOf false w i0 steps).1.map ExecutionResult.aborted
          = List.replicate (k - 1) false ++ [true]) ∧
      (((execSteps resolve envOf choiceOf false w i0 steps).1[k - 1]?).map
          ExecutionResult.output = some "aborted") := by
  intro steps
  induction steps with
  | nil => intro w i0 k hk1 hk2 _ _; simp at hk2; omega
  | cons s rest ih =>
    intro w i0 k hk1 hk2 hpre habort
    simp only [execSteps, if_neg (Bool.false_ne_true)]
    rcases Nat.lt_or_ge 1 k with hk | hk
    · -- k ≥ 2: the abort happens deeper in
      have h0 : choiceOf i0 ≠ Choice.a := by
        have := hpre 0 (by omega)
        simpa using this
      have hk' : 1 ≤ k - 1 := by omega
      have hk2' : k - 1 ≤ rest.length := by
        simp at hk2; omega
      have hpre' : ∀ j, j < k - 1 - 1 → choiceOf (i0 + 1 + j) ≠ Choice.a := by
        intro j hj
        have := hpre (j + 1) (by omega)
        simpa [Nat.add_assoc, Nat.add_comm 1 j] using this
      have habort' : choiceOf (i0 + 1 + (k - 1 - 1)) = Choice.a := by
        have : i0 + 1 + (k - 1 - 1) = i0 + (k - 1) := by omega
        rw [this]; exact habort
      cases hch : choiceOf i0 with
      | a => exact absurd hch h0
      | n =>
        obtain ⟨ih1, ih2, ih3⟩ := ih w (i0 + 1) (k - 1) hk' hk2' hpre' habort'
        refine ⟨?_, ?_, ?_⟩
        · have htk : (s :: rest).take k = s :: rest.take (k - 1) := by
            cases k with
            | zero => omega
            | succ m => simp
          simp [htk, ih1]
        · have hrep : List.replicate (k - 1) false = false :: List.replicate (k - 1 - 1) false := by
            cases hc : k - 1 with
            | zero => omega
            | succ m => simp [List.replicate]
          simp only [List.map_cons, ih2, hrep]
          simp
        · have hidx : k - 1 = (k - 1 - 1) + 1 := by omega
          rw [hidx]
          simpa using ih3
      | y =>
        obtain ⟨ih1, ih2, ih3⟩ :=
          ih (executeTool resolve (envOf i0) w s).world (i0 + 1) (k - 1) hk' hk2' hpre' habort'
        refine ⟨?_, ?_, ?_⟩
        · have htk : (s :: rest).take k = s :: rest.take (k - 1) := by
            cases k with
            | zero => omega
            | succ m => simp
          simp [htk, ih1]
        · have hrep : List.replicate (k - 1) false = false :: List.replicate (k - 1 - 1) false := by
            cases hc : k - 1 with
            | zero => omega
            | succ m => simp [List.replicate]
          simp only [List.map_cons, ih2, hrep]
          simp
        · have hidx : k - 1 = (k - 1 - 1) + 1 := by omega
          rw [hidx]
          simpa using ih3
    · -- k = 1: abort at this very step
      have hk0 : k = 1 := by omega
      subst hk0
      simp only [Nat.sub_self, Nat.add_zero] at habort
      rw [habort]
      simp

theorem fixLoopAux_exhausts (resolve : String → String) (envs : Nat → FixIterEnv)
    (cmd : String)
    (hgen : ∀ i, (envs i).planGen ≠ none)
    (hconf : ∀ i, (envs i).confirmExec = true)
    (hfail : ∀ i, (runCmd (envs i).rerun cmd true true).exitCode ≠ 0) :
    ∀ (rem done : Nat) (w : World),
      (fixLoopAux resolve envs cmd rem done w).1 = FixOutcome.exhausted ∧
      (fixLoopAux resolve envs cmd rem done w).2.1 = done + rem := by
  intro rem
  induction rem with
  | zero => intro done w; simp [fixLoopAux]
  | succ k ih =>
    intro done w
    obtain ⟨plan, hp⟩ := Option.ne_none_iff_exists'.mp (hgen done)
    have hrec := ih (done + 1)
      (execute_plan resolve (envs done).stepEnvs (envs done).choices plan false w).2
    simp only [fixLoopAux, hp, hconf done]
    rw [if_neg (by simp : ¬(true = false)), if_neg (hfail done)]
    exact ⟨hrec.1, by rw [hrec.2]; omega⟩

/-- The confirmation-prompt flag of `run_cmd` is exactly "neither skipped nor
allowlisted", whatever the spawn outcome and the operator's answer. -/
theorem runCmd_asked_eq (env : CmdEnv) (cmd : String) (capture skipC : Bool) :
    (runCmd env cmd capture skipC).asked
      = (!skipC && !(env.allowlist.any (fun a => pyStartsWith cmd a))) := by
  unfold runCmd
  cases hsp : env.spawn <;> cases hca : env.confirmAnswer <;>
    cases h1 : (!skipC && !(env.allowlist.any fun a => pyStartsWith cmd a)) <;>
      simp [h1, hca]

theorem pySplitlinesL_xLines : ∀ k, pySplitlinesL (xLines k) = List.replicate k ['x']
  | 0 => rfl
  | 1 => rfl
  | k + 2 => by
    have ih := pySplitlinesL_xLines (k + 1)
    simp only [xLines, pySplitlinesL, splitlinesAux] at ih ⊢
    rw [ih]
    simp [List.replicate_succ]

theorem pySplitlines_fileLines (k : Nat) :
    pySplitlines (fileLines k) = List.replicate k "x" := by
  simp only [pySplitlines, fileLines, pySplitlinesL_xLines]
  rw [List.map_replicate]

/-! ## Claim theorems -/

/-- C9: `read_file` on an existing file of at most 500 lines (in particular
exactly 500) returns the content unchanged with no truncation notice; on a
longer file it returns the first 500 lines plus the literal notice naming
exactly how many further lines were omitted. -/
theorem read_file_truncation (resolve : String → String) (fs : String → Option String)
    (path content : String) (h : fs (resolve path) = some content) :
    ((pySplitlines content).length ≤ 500 → read_file resolve fs path = content) ∧
    (500 < (pySplitlines content).length →
      read_file resolve fs path =
        joinNL ((pySplitlines content).take 500) ++ "\n... [truncated, "
          ++ toString ((pySplitlines content).length - 500) ++ " more lines]") := by
  constructor
  · intro hle
    simp only [read_file, h]
    rw [if_neg (by omega)]
  · intro hgt
    simp only [read_file, h]
    rw [if_pos (by omega)]

/-- Witness for C9: a 500-line file comes back verbatim; a 501-line file is
truncated with a notice of exactly 1 omitted line. -/
theorem read_file_truncation_witness :
    read_file id (fun _ => some (fileLines 500)) "a.txt" = fileLines 500 ∧
    read_file id (fun _ => some (fileLines 501)) "b.txt" =
      joinNL ((pySplitlines (fileLines 501)).take 500) ++ "\n... [truncated, "
        ++ toString ((pySplitlines (fileLines 501)).length - 500) ++ " more lines]" ∧
    toString ((pySplitlines (fileLines 501)).length - 500) = "1" :=
  ⟨(read_file_truncation id (fun _ => some (fileLines 500)) "a.txt" (fileLines 500) rfl).1
      (by rw [pySplitlines_fileLines]; simp),
   (read_file_truncation id (fun _ => some (fileLines 501)) "b.txt" (fileLines 501) rfl).2
      (by rw [pySplitlines_fileLines]; simp),
   by rw [pySplitlines_fileLines]; simp only [List.length_replicate]; decide⟩

/-- C5: `run_cmd` prompts exactly when neither `skip_confirm` nor an
allowlist prefix applies; a declined command spawns nothing and returns
`(0, "", "skipped")`; `run_cmd("pytest -q", skip_confirm=False)` under
`command_allowlist=["pytest"]` never prompts and returns the spawned
command's real exit code and output. -/
theorem runCmd_confirmation (env : CmdEnv) (cmd : String) (capture skipC : Bool) :
    ((runCmd env cmd capture skipC).asked
        = (!skipC && !(env.allowlist.any (fun a => pyStartsWith cmd a)))) ∧
    ((!skipC && !(env.allowlist.any (fun a => pyStartsWith cmd a))) = true →
      env.confirmAnswer = false →
      runCmd env cmd capture skipC = ⟨0, "", "skipped", true, false⟩) ∧
    (∀ (rc : Int) (out err : String) (ca : Bool),
      runCmd ⟨["pytest"], ca, SpawnOutcome.ok (some rc) out err⟩ "pytest -q" true false
        = ⟨rc, pyStrip out, pyStrip err, false, true⟩) := by
  refine ⟨runCmd_asked_eq env cmd capture skipC, ?_, ?_⟩
  · intro h1 h2
    unfold runCmd
    simp [h1, h2]
  · intro rc out err ca
    unfold runCmd
    have hsw : (["pytest"].any fun a => pyStartsWith "pytest -q" a) = true := rfl
    by_cases hrc : rc = 0
    · subst hrc; simp [hsw]
    · simp [hsw, hrc]

/-- Witness for C5: a declined non-allowlisted command, and the allowlisted
`pytest -q` run. -/
theorem runCmd_confirmation_witness :
    runCmd ⟨[], false, SpawnOutcome.ok (some 1) "o" "e"⟩ "rm -rf tmp" true false
      = ⟨0, "", "skipped", true, false⟩ ∧
    runCmd ⟨["pytest"], false, SpawnOutcome.ok (some 2) " out " "err"⟩ "pytest -q" true false
      = ⟨2, pyStrip " out ", pyStrip "err", false, true⟩ :=
  ⟨(runCmd_confirmation ⟨[], false, SpawnOutcome.ok (some 1) "o" "e"⟩ "rm -rf tmp" true
      false).2.1 rfl rfl,
   (runCmd_confirmation ⟨[], false, SpawnOutcome.ok (some 2) " out " "err"⟩ "x" true
      false).2.2 2 " out " "err" false⟩

/-- C4: aborting at step `k` of an `n`-step plan yields exactly `k` results:
the first `k−1` track the steps processed before the abort and are not
aborted, the `k`-th is the aborted record for step `k`, and steps beyond `k`
produce no result at all. -/
theorem execute_plan_abort (resolve : String → String) (envOf : Nat → StepEnv)
    (choiceOf : Nat → Choice) (plan : Plan) (w : World) (k : Nat)
    (hk1 : 1 ≤ k) (hk2 : k ≤ plan.steps.length)
    (hpre : ∀ j, j < k - 1 → choiceOf j ≠ Choice.a)
    (habort : choiceOf (k - 1) = Choice.a) :
    ((execute_plan resolve envOf choiceOf plan false w).1.length = k) ∧
    ((execute_plan resolve envOf choiceOf plan false w).1.map ExecutionResult.step
        = plan.steps.take k) ∧
    ((execute_plan resolve envOf choiceOf plan false w).1.map ExecutionResult.aborted
        = List.replicate (k - 1) false ++ [true]) ∧
    (((execute_plan resolve envOf choiceOf plan false w).1[k - 1]?).map
        ExecutionResult.output = some "aborted") := by
  have h := execSteps_abort resolve envOf choiceOf plan.steps w 0 k hk1 hk2
    (by intro j hj; simpa using hpre j hj) (by simpa using habort)
  refine ⟨?_, h.1, h.2.1, h.2.2⟩
  have hlen := congrArg List.length h.1
  simpa [Nat.min_eq_left hk2] using hlen

/-- Witness for C4: the 5-step plan aborted at step 3 produces exactly
3 results, 2 normal plus 1 aborted. -/
theorem execute_plan_abort_witness :
    ((execute_plan id (fun _ => env0) chooser plan5 false w0).1.length = 3) ∧
    ((execute_plan id (fun _ => env0) chooser plan5 false w0).1.map ExecutionResult.step
        = plan5.steps.take 3) ∧
    ((execute_plan id (fun _ => env0) chooser plan5 false w0).1.map ExecutionResult.aborted
        = List.replicate 2 false ++ [true]) ∧
    (((execute_plan id (fun _ => env0) chooser plan5 false w0).1[2]?).map
        ExecutionResult.output = some "aborted") :=
  execute_plan_abort id (fun _ => env0) chooser plan5 w0 3 (by decide) (by decide)
    (by decide) (by decide)

/-- C6: with `max_iterations = 3`, successful plan generation and
confirmation every time, and a rerun that fails every time, the fix loop
performs exactly 3 generate/execute/rerun cycles, reports failure and stops. -/
theorem fix_loop_three_failures (resolve : String → String) (envs : Nat → FixIterEnv)
    (cmd : String) (w : World)
    (hgen : ∀ i, (envs i).planGen ≠ none)
    (hconf : ∀ i, (envs i).confirmExec = true)
    (hfail : ∀ i, (runCmd (envs i).rerun cmd true true).exitCode ≠ 0) :
    (fixLoop resolve envs cmd 3 w).1 = FixOutcome.exhausted ∧
    (fixLoop resolve envs cmd 3 w).2.1 = 3 := by
  have h := fixLoopAux_exhausts resolve envs cmd hgen hconf hfail 3 0 w
  exact ⟨h.1, by rw [fixLoop, h.2]⟩

/-- Witness for C6: a concrete always-failing rerun drives exactly 3 cycles. -/
theorem fix_loop_three_failures_witness :
    (fixLoop id (fun _ => fixEnv0) "false" 3 w0).1 = FixOutcome.exhausted ∧
    (fixLoop id (fun _ => fixEnv0) "false" 3 w0).2.1 = 3 :=
  fix_loop_three_failures id (fun _ => fixEnv0) "false" w0
    (by intro i; show fixEnv0.planGen ≠ none; simp [fixEnv0])
    (by intro i; rfl)
    (by intro i; show (runCmd fixEnv0.rerun "false" true true).exitCode ≠ 0; decide)

/-- C7: a `write_file` step whose `content` argument is absent, empty, or
equal to the `content_hint` is not written at all: dispatch returns the
content-generation sentinel and leaves the world untouched; the real write
tool is invoked exactly when a literal non-empty `content` differing from the
hint is present. -/
theorem dispatch_write_file_gate (resolve : String → String) (env : StepEnv) (w : World)
    (step : PlanStep) (ht : step.tool = "write_file")
    (_hc : strOrAbsentB step.args "content" = true)
    (_hh : strOrAbsentB step.args "content_hint" = true) :
    ((argGetStr step.args "content" (argGetStr step.args "content_hint" "") = "" ∨
        argGetStr step.args "content" (argGetStr step.args "content_hint" "")
          = argGetStr step.args "content_hint" "") →
      executeTool resolve env w step =
        ⟨"Skipped write_file(" ++ argGetStr step.args "path" ""
            ++ "): content generation requires model call (Task 5)", w, false, false⟩) ∧
    ((executeTool resolve env w step).wroteCalled = true ↔
      ¬(argGetStr step.args "content" (argGetStr step.args "content_hint" "") = "" ∨
        argGetStr step.args "content" (argGetStr step.args "content_hint" "")
          = argGetStr step.args "content_hint" "")) := by
  obtain ⟨n, d, tl, ags⟩ := step
  simp only at ht
  subst ht
  constructor
  · intro hno
    simp only [executeTool]
    rw [if_neg (by decide : ¬((toolNames.contains "write_file") = false))]
    rw [if_neg (by decide : ¬(("write_file" : String) = "read_file"))]
    rw [if_pos trivial]
    rw [if_pos hno]
  · simp only [executeTool]
    rw [if_neg (by decide : ¬((toolNames.contains "write_file") = false))]
    rw [if_neg (by decide : ¬(("write_file" : String) = "read_file"))]
    rw [if_pos trivial]
    by_cases hno : (argGetStr ags "content" (argGetStr ags "content_hint" "") = "" ∨
        argGetStr ags "content" (argGetStr ags "content_hint" "")
          = argGetStr ags "content_hint" "")
    · rw [if_pos hno]
      simp [hno]
    · rw [if_neg hno]
      simp [hno]

/-- Witness for C7: a hint-only step returns the sentinel untouched; a step
with real literal content invokes the write tool. -/
theorem dispatch_write_file_gate_witness :
    executeTool id env0 w0 wstep =
      ⟨"Skipped write_file(" ++ argGetStr wstep.args "path" ""
          ++ "): content generation requires model call (Task 5)", w0, false, false⟩ ∧
    (executeTool id env0 w0 wstep2).wroteCalled = true :=
  ⟨(dispatch_write_file_gate id env0 w0 wstep rfl (by decide) (by decide)).1 (by decide),
   (dispatch_write_file_gate id env0 w0 wstep2 rfl (by decide) (by decide)).2.mpr
     (by decide)⟩

/-- Counterexample for C8: the source answers an unrecognized tool name with
`"Unknown tool: ..."`, not with the claimed `"... not yet implemented"`
string (that branch is dead code behind the `TOOL_MAP` lookup). -/
theorem unknown_tool_counterexample :
    (executeTool id env0 w0 ukStep).output = "Unknown tool: frobnicate" ∧
    (executeTool id env0 w0 ukStep).output ≠ "Tool 'frobnicate' not yet implemented" :=
  ⟨rfl, by decide⟩

/-- C8 (amended): an unrecognized tool name yields the `"Unknown tool:"`
output string without raising, the world is untouched, and execution
continues with the remaining steps (a plan with no abort choice always
produces one result per step). -/
theorem unknown_tool_dispatch (resolve : String → String) (env : StepEnv) (w : World)
    (step : PlanStep) (h : toolNames.contains step.tool = false) :
    executeTool resolve env w step = ⟨"Unknown tool: " ++ step.tool, w, false, false⟩ ∧
    (∀ (envOf : Nat → StepEnv) (choiceOf : Nat → Choice) (plan : Plan) (w' : World),
      (∀ j, choiceOf j ≠ Choice.a) →
      (execute_plan resolve envOf choiceOf plan false w').1.length = plan.steps.length) := by
  constructor
  · simp only [executeTool]
    rw [if_pos h]
  · intro envOf choiceOf plan w' hc
    exact execSteps_length_no_abort resolve envOf choiceOf plan.steps w' 0 hc

/-- Witness for C8: the `frobnicate` step gets its sentinel and a 2-step plan
containing it still yields 2 results. -/
theorem unknown_tool_dispatch_witness :
    executeTool id env0 w0 ukStep = ⟨"Unknown tool: " ++ ukStep.tool, w0, false, false⟩ ∧
    (execute_plan id (fun _ => env0) (fun _ => Choice.y) ⟨"p", [ukStep, rdStep 2]⟩ false
        w0).1.length = 2 :=
  ⟨(unknown_tool_dispatch id env0 w0 ukStep (by decide)).1,
   (unknown_tool_dispatch id env0 w0 ukStep (by decide)).2 (fun _ => env0)
     (fun _ => Choice.y) ⟨"p", [ukStep, rdStep 2]⟩ w0
     (by intro j; show Choice.y ≠ Choice.a; decide)⟩

/-- Counterexample for C1: the executor forwards `skip_confirm=False`, so a
non-allowlisted plan command does trigger `run_cmd`'s own confirmation
prompt; declined, the step's output is the formatted `skipped` sentinel, not
the spawned command's output. -/
theorem run_cmd_dispatch_counterexample :
    (executeTool id denyEnv w0 cmdStep).cmdAsked = true ∧
    (executeTool id denyEnv w0 cmdStep).output = "exit_code=0\nstdout=\nstderr=skipped" :=
  ⟨rfl, rfl⟩

/-- C1 (amended): the `run_cmd` dispatch forwards `args.command` (default
empty string) to the command tool with `skip_confirm=False` — so the tool's
own allowlist/confirmation logic applies, prompting exactly when the command
is not allowlisted — and formats the exit code plus stdout truncated to 500
characters and stderr truncated to 200 characters into one output string. -/
theorem run_cmd_dispatch (resolve : String → String) (env : StepEnv) (w : World)
    (step : PlanStep) (ht : step.tool = "run_cmd")
    (_ha : strOrAbsentB step.args "command" = true) :
    executeTool resolve env w step =
      ⟨"exit_code="
          ++ toString (runCmd env.cmd (argGetStr step.args "command" "") true false).exitCode
          ++ "\nstdout="
          ++ pySlice (runCmd env.cmd (argGetStr step.args "command" "") true false).stdout 500
          ++ "\nstderr="
          ++ pySlice (runCmd env.cmd (argGetStr step.args "command" "") true false).stderr 200,
        w,
        (runCmd env.cmd (argGetStr step.args "command" "") true false).asked, false⟩ ∧
    (executeTool resolve env w step).cmdAsked
      = !(env.cmd.allowlist.any
          (fun a => pyStartsWith (argGetStr step.args "command" "") a)) := by
  clear _ha
  obtain ⟨n, d, tl, ags⟩ := step
  simp only at ht
  subst ht
  constructor
  · simp only [executeTool]
    rw [if_neg (by decide : ¬((toolNames.contains "run_cmd") = false))]
    rw [if_neg (by decide : ¬(("run_cmd" : String) = "read_file"))]
    rw [if_neg (by decide : ¬(("run_cmd" : String) = "write_file"))]
    rw [if_neg (by decide : ¬(("run_cmd" : String) = "search_files"))]
    rw [if_pos trivial]
  · simp only [executeTool]
    rw [if_neg (by decide : ¬((toolNames.contains "run_cmd") = false))]
    rw [if_neg (by decide : ¬(("run_cmd" : String) = "read_file"))]
    rw [if_neg (by decide : ¬(("run_cmd" : String) = "write_file"))]
    rw [if_neg (by decide : ¬(("run_cmd" : String) = "search_files"))]
    rw [if_pos trivial]
    show (runCmd env.cmd (argGetStr ags "command" "") true false).asked = _
    rw [runCmd_asked_eq]
    simp

/-- Witness for C1 (amended): the allowlisted `pytest -q` plan step runs
without a prompt and reports the spawned exit code and output. -/
theorem run_cmd_dispatch_witness :
    executeTool id allowEnv w0 pyStep =
      ⟨"exit_code="
          ++ toString (runCmd allowEnv.cmd (argGetStr pyStep.args "command" "") true
              false).exitCode
          ++ "\nstdout="
          ++ pySlice (runCmd allowEnv.cmd (argGetStr pyStep.args "command" "") true
              false).stdout 500
          ++ "\nstderr="
          ++ pySlice (runCmd allowEnv.cmd (argGetStr pyStep.args "command" "") true
              false).stderr 200,
        w0, (runCmd allowEnv.cmd (argGetStr pyStep.args "command" "") true false).asked,
        false⟩ ∧
    (executeTool id allowEnv w0 pyStep).cmdAsked = false :=
  ⟨(run_cmd_dispatch id allowEnv w0 pyStep rfl (by decide)).1,
   ((run_cmd_dispatch id allowEnv w0 pyStep rfl (by decide)).2).trans (by decide)⟩

/-- C2 at its failing input (the code refreshes "original" on a second
write): file `/f` holds `a`; a confirmed write of `b` then of `c` leaves the
pending entry `("/f", ("b", "c"))` — the first write's baseline `a` is lost,
while the claim requires `("/f", ("a", "c"))`. -/
theorem pending_original_refreshed :
    (write_file id (write_file id worldA "/f" "b" false true).world "/f" "c" false
        true).world.pending = [("/f", "b", "c")] ∧
    (("/f", "b", "c") : String × String × String) ≠ ("/f", "a", "c") :=
  ⟨rfl, by decide⟩

/-- C10: pending-write lookups and clears are keyed by the resolved path:
after a successful confirmed write the captured pair is visible through every
aliasing path, untracked paths read `none`, clearing an aliasing path removes
exactly that entry, and clearing with no path empties the table. -/
theorem pending_table_keyed_by_resolved (resolve : String → String) (w : World)
    (path q content : String) (skipC confirmAnswer : Bool)
    (hdiff : (w.fs (resolve path)).getD "" ≠ content)
    (hgo : skipC = true ∨ confirmAnswer = true)
    (halias : resolve q = resolve path) :
    (get_pending_diff resolve (write_file resolve w path content skipC confirmAnswer).world q
        = some ((w.fs (resolve path)).getD "", content)) ∧
    (∀ (w' : World) (r : String), resolve r ∉ w'.pending.map Prod.fst →
      get_pending_diff resolve w' r = none) ∧
    (∀ (w' : World) (r : String), (w'.pending.map Prod.fst).Nodup →
      List.lookup (resolve r) (clear_pending resolve w' (some r)) = none) ∧
    (∀ (w' : World) (r k : String), k ≠ resolve r →
      List.lookup k (clear_pending resolve w' (some r)) = List.lookup k w'.pending) ∧
    (∀ w' : World, clear_pending resolve w' none = []) := by
  refine ⟨?_, ?_, ?_, ?_, ?_⟩
  · unfold write_file get_pending_diff
    rw [if_neg hdiff]
    rcases hgo with hgo | hgo
    · subst hgo
      simp only [if_pos rfl]
      rw [halias]
      exact lookup_upsert_self _ _ _
    · subst hgo
      by_cases hs : skipC
      · simp only [if_pos hs]
        rw [halias]
        exact lookup_upsert_self _ _ _
      · simp only [if_neg hs, if_pos rfl]
        rw [halias]
        exact lookup_upsert_self _ _ _
  · intro w' r hr
    exact lookup_none_of_key_absent _ _ hr
  · intro w' r hnd
    exact lookup_popKey_self _ _ hnd
  · intro w' r k hk
    exact lookup_popKey_ne _ _ hk _
  · intro w'
    rfl

/-- Witness for C10: writing `/f` through the alias-aware resolver and
reading it back through `./f`, plus the lookup/clear corner cases. -/
theorem pending_table_keyed_by_resolved_witness :
    (get_pending_diff resolveW (write_file resolveW w0 "/f" "c" false true).world "./f"
        = some ("", "c")) ∧
    get_pending_diff resolveW w0 "nope" = none ∧
    List.lookup "/f"
      (clear_pending resolveW (write_file resolveW w0 "/f" "c" false true).world
        (some "./f")) = none ∧
    clear_pending resolveW w0 none = [] := by
  have h := pending_table_keyed_by_resolved resolveW w0 "/f" "./f" "c" false true
    (by decide) (Or.inr rfl) rfl
  refine ⟨h.1, h.2.1 w0 "nope" (by simp [w0]), ?_, h.2.2.2.2 w0⟩
  have := h.2.2.1 (write_file resolveW w0 "/f" "c" false true).world "./f"
  rw [show resolveW "./f" = "/f" from rfl] at this
  apply this
  decide

/-! ## Round-trip lemmas: tokens -/

theorem skipWs_cons {c : Char} (t : List Char) (hc : isWsChar c = false) :
    skipWsL (c :: t) = c :: t := by
  simp [skipWsL, List.dropWhile_cons, hc]

theorem stripPre_self : ∀ (p rest : List Char), stripPre p (p ++ rest) = some rest
  | [], _ => rfl
  | c :: p, rest => by simp [stripPre, stripPre_self p rest]

theorem parseStrBody_safe :
    ∀ (s : List Char), s.all safeChar = true →
      ∀ rest : List Char, parseStrBody (s ++ '"' :: rest) = some (s, rest)
  | [], _, rest => rfl
  | c :: s, hs, rest => by
    simp only [List.all_cons, Bool.and_eq_true] at hs
    obtain ⟨hc, hs'⟩ := hs
    simp only [safeChar, Bool.and_eq_true, Bool.not_eq_true', decide_eq_false_iff_not,
      decide_eq_true_eq] at hc
    simp only [List.cons_append, parseStrBody, List.append_eq]
    rw [if_neg hc.1.1.1, if_neg hc.1.1.2, if_neg (by omega)]
    rw [parseStrBody_safe s hs' rest]
    rfl

theorem chrDigit_digitVal {d : Nat} (hd : d < 10) :
    isDigitChar (chrDigit d) = true ∧ digitVal (chrDigit d) = d := by
  interval_cases d <;> exact ⟨rfl, rfl⟩

theorem chrDigit_ne_zero {d : Nat} (hd : d < 10) (h0 : d ≠ 0) : chrDigit d ≠ '0' := by
  interval_cases d <;> simp_all <;> decide

theorem natChars_eq_digits :
    ∀ (f n : Nat) (acc : List Char), 1 ≤ n → n ≤ f →
      natChars f n acc = ((Nat.digits 10 n).map chrDigit).reverse ++ acc := by
  intro f
  induction f with
  | zero => intro n acc h1 h2; omega
  | succ f ih =>
    intro n acc h1 h2
    by_cases hlt : n < 10
    · simp only [natChars, if_pos hlt]
      rw [Nat.digits_def' (by omega : 1 < 10) (by omega : 0 < n)]
      rw [Nat.mod_eq_of_lt hlt, Nat.div_eq_of_lt hlt]
      simp
    · simp only [natChars, if_neg hlt]
      have hdiv1 : 1 ≤ n / 10 := Nat.one_le_div_iff (by omega) |>.mpr (by omega)
      have hdivf : n / 10 ≤ f := by
        have := Nat.div_lt_self (by omega : 0 < n) (by omega : 1 < 10)
        omega
      rw [ih (n / 10) (chrDigit (n % 10) :: acc) hdiv1 hdivf]
      rw [Nat.digits_def' (by omega : 1 < 10) (by omega : 0 < n)]
      simp

theorem natDigitsChars_spec {n : Nat} (hn : 1 ≤ n) :
    natDigitsChars n = ((Nat.digits 10 n).map chrDigit).reverse := by
  rw [natDigitsChars, natChars_eq_digits (n + 1) n [] hn (by omega)]
  simp

theorem natDigitsChars_all_digit (n : Nat) :
    ∀ c ∈ natDigitsChars n, isDigitChar c = true := by
  by_cases hn : n = 0
  · subst hn; intro c hc; simp [natDigitsChars, natChars] at hc; subst hc; rfl
  · rw [natDigitsChars_spec (by omega)]
    intro c hc
    simp only [List.mem_reverse, List.mem_map] at hc
    obtain ⟨d, hd, rfl⟩ := hc
    exact (chrDigit_digitVal (Nat.digits_lt_base (by omega) hd)).1

theorem foldr_acc_ofDigits :
    ∀ (L : List Nat), (∀ d ∈ L, d < 10) →
      L.foldr (fun d acc => acc * 10 + d) 0 = Nat.ofDigits 10 L := by
  intro L
  induction L with
  | nil => intro _; simp [Nat.ofDigits]
  | cons d t ih =>
    intro h
    simp only [List.foldr_cons, Nat.ofDigits_cons]
    rw [ih (fun x hx => h x (List.mem_cons_of_mem d hx))]
    ring

theorem valOfDigits_natDigitsChars (n : Nat) : valOfDigits (natDigitsChars n) = n := by
  by_cases hn : n = 0
  · subst hn; rfl
  · rw [natDigitsChars_spec (by omega), valOfDigits, List.foldl_reverse]
    have : ∀ (L : List Nat), (∀ d ∈ L, d < 10) →
        ((L.map chrDigit).foldr (fun c acc => acc * 10 + digitVal c) 0) = Nat.ofDigits 10 L := by
      intro L hL
      rw [List.foldr_map]
      have hcong : ∀ (M : List Nat), (∀ d ∈ M, d < 10) →
          M.foldr (fun d acc => acc * 10 + digitVal (chrDigit d)) 0
            = M.foldr (fun d acc => acc * 10 + d) 0 := by
        intro M
        induction M with
        | nil => intro _; rfl
        | cons d t ih =>
          intro hM
          simp only [List.foldr_cons]
          rw [ih (fun x hx => hM x (List.mem_cons_of_mem d hx))]
          rw [(chrDigit_digitVal (hM d (List.mem_cons_self d t))).2]
      rw [hcong L hL]
      exact foldr_acc_ofDigits L hL
    have hfold := this (Nat.digits 10 n) (fun d hd => Nat.digits_lt_base (by omega) hd)
    calc ((Nat.digits 10 n).map chrDigit).foldr (fun x y => (fun a c => a * 10 + digitVal c) y x) 0
        = ((Nat.digits 10 n).map chrDigit).foldr (fun c acc => acc * 10 + digitVal c) 0 := rfl
      _ = Nat.ofDigits 10 (Nat.digits 10 n) := hfold
      _ = n := Nat.ofDigits_digits 10 n

theorem spanDigits_append :
    ∀ (ds : List Char), (∀ c ∈ ds, isDigitChar c = true) →
      ∀ (rest : List Char), noDigitHead rest = true → spanDigits (ds ++ rest) = (ds, rest)
  | [], _, rest, hrest => by
    cases rest with
    | nil => rfl
    | cons c t =>
      simp only [noDigitHead, Bool.not_eq_true'] at hrest
      simp [spanDigits, hrest]
  | d :: ds, hds, rest, hrest => by
    have hd : isDigitChar d = true := hds d (List.mem_cons_self d ds)
    have ih := spanDigits_append ds (fun c hc => hds c (List.mem_cons_of_mem d hc)) rest hrest
    simp only [List.cons_append, spanDigits, if_pos hd, List.append_eq, ih]

theorem natChars_head :
    ∀ (f n : Nat) (acc : List Char), 1 ≤ n → n ≤ f →
      ∃ m t, natChars f n acc = chrDigit m :: t ∧ 1 ≤ m ∧ m < 10 := by
  intro f
  induction f with
  | zero => intro n acc h1 h2; omega
  | succ f ih =>
    intro n acc h1 h2
    by_cases hlt : n < 10
    · exact ⟨n, acc, by simp [natChars, if_pos hlt], h1, hlt⟩
    · have hdiv1 : 1 ≤ n / 10 := Nat.one_le_div_iff (by omega) |>.mpr (by omega)
      have hdivf : n / 10 ≤ f := by
        have := Nat.div_lt_self (by omega : 0 < n) (by omega : 1 < 10)
        omega
      obtain ⟨m, t, hm⟩ := ih (n / 10) (chrDigit (n % 10) :: acc) hdiv1 hdivf
      exact ⟨m, t, by simp [natChars, if_neg hlt, hm.1], hm.2.1, hm.2.2⟩

theorem natDigitsChars_shape (n : Nat) :
    ∃ c t, natDigitsChars n = c :: t ∧ isDigitChar c = true ∧
      (c = '0' → n = 0 ∧ t = []) := by
  by_cases hn : n = 0
  · subst hn
    exact ⟨'0', [], rfl, rfl, fun _ => ⟨rfl, rfl⟩⟩
  · obtain ⟨m, t, hm, hm1, hm2⟩ := natChars_head (n + 1) n [] (by omega) (by omega)
    refine ⟨chrDigit m, t, hm, (chrDigit_digitVal hm2).1, fun hc => ?_⟩
    exact absurd hc (chrDigit_ne_zero hm2 (by omega))

/-- A numeral and its tail parse back to the rendered natural. -/
theorem parseNumL_natDigits (n : Nat) (rest : List Char) (hrest : noDigitHead rest = true) :
    parseNumL (natDigitsChars n ++ rest) = some ((n : Int), rest) := by
  obtain ⟨c, t, hshape, hcdig, hczero⟩ := natDigitsChars_shape n
  have hspan := spanDigits_append (natDigitsChars n) (natDigitsChars_all_digit n) rest hrest
  have hneg : ¬((natDigitsChars n ++ rest).head? = some '-') := by
    rw [hshape]
    intro hcontr
    simp only [List.cons_append, List.head?_cons, Option.some.injEq] at hcontr
    subst hcontr
    exact absurd hcdig (by decide)
  simp only [parseNumL]
  rw [if_neg hneg]
  rw [hspan]
  rw [if_neg (by rw [hshape]; intro hc; cases hc)]
  rw [if_neg ?hzero]
  case hzero =>
    rw [hshape]
    rintro ⟨h0, hlen⟩
    simp only [List.head?_cons, Option.some.injEq] at h0
    obtain ⟨hn0, ht⟩ := hczero h0
    subst ht
    simp at hlen
  rw [valOfDigits_natDigitsChars]
  have hdec : (decide ((natDigitsChars n ++ rest).head? = some '-')) = false :=
    decide_eq_false hneg
  rw [hdec]
  rfl

/-- A rendered integer and its tail parse back exactly. -/
theorem parseNumL_renderInt (i : Int) (rest : List Char) (hrest : noDigitHead rest = true) :
    parseNumL (renderInt i ++ rest) = some (i, rest) := by
  by_cases hi : i < 0
  · simp only [renderInt, if_pos hi, List.cons_append]
    obtain ⟨c, t, hshape, hcdig, hczero⟩ := natDigitsChars_shape i.natAbs
    have hspan :=
      spanDigits_append (natDigitsChars i.natAbs) (natDigitsChars_all_digit _) rest hrest
    have hhd : ('-' :: (natDigitsChars i.natAbs ++ rest)).head? = some '-' := rfl
    simp only [parseNumL]
    rw [if_pos hhd]
    simp only [List.tail_cons]
    rw [hspan]
    rw [if_neg (by rw [hshape]; intro hc; cases hc)]
    rw [if_neg ?hz]
    case hz =>
      rw [hshape]
      rintro ⟨h0, hlen⟩
      simp only [List.head?_cons, Option.some.injEq] at h0
      obtain ⟨hn0, ht⟩ := hczero h0
      omega
    rw [valOfDigits_natDigitsChars]
    rw [decide_eq_true hhd]
    have : -((i.natAbs : Nat) : Int) = i := by omega
    rw [if_pos rfl, this]
  · simp only [renderInt, if_neg hi]
    rw [parseNumL_natDigits i.toNat rest hrest]
    rw [Int.toNat_of_nonneg (by omega : 0 ≤ i)]

theorem digit_not_ws {c : Char} (h : isDigitChar c = true) : isWsChar c = false := by
  by_contra hws
  simp only [Bool.not_eq_false] at hws
  simp only [isWsChar, Bool.or_eq_true, beq_iff_eq] at hws
  rcases hws with ((h1 | h1) | h1) | h1 <;> subst h1 <;> exact absurd h (by decide)

/-- Unfolding of the value mode at a whitespace-free head. -/
theorem parseStep_value_cons (f : Nat) (c : Char) (r : List Char)
    (hnws : isWsChar c = false) :
    parseStep (f + 1) PMode.value (c :: r) =
      (if c = '"' then (parseStrBody r).map (fun p => (PRes.v (Json.str (String.mk p.1)), p.2))
       else if c = 't' then
         (stripPre ['r', 'u', 'e'] r).map (fun rest => (PRes.v (Json.bool true), rest))
       else if c = 'f' then
         (stripPre ['a', 'l', 's', 'e'] r).map (fun rest => (PRes.v (Json.bool false), rest))
       else if c = 'n' then
         (stripPre ['u', 'l', 'l'] r).map (fun rest => (PRes.v Json.null, rest))
       else if c = '[' then
         match parseStep f PMode.items r with
         | some (PRes.vs l, rest) => some (PRes.v (Json.arr l), rest)
         | _ => none
       else if c = '{' then
         match parseStep f PMode.fields r with
         | some (PRes.fs l, rest) => some (PRes.v (Json.obj (dictify l)), rest)
         | _ => none
       else (parseNumL (c :: r)).map (fun p => (PRes.v (Json.num p.1), p.2))) := by
  rw [parseStep.eq_def]
  simp only []
  rw [skipWs_cons r hnws]

/-- Unfolding of the items mode at a whitespace-free head. -/
theorem parseStep_items_cons (f : Nat) (c : Char) (r : List Char)
    (hnws : isWsChar c = false) :
    parseStep (f + 1) PMode.items (c :: r) =
      (if c = ']' then some (PRes.vs [], r)
       else
         match parseStep f PMode.value (c :: r) with
         | some (PRes.v j, rest) =>
           (match skipWsL rest with
            | [] => none
            | c2 :: r2 =>
              if c2 = ',' then
                match parseStep f PMode.items r2 with
                | some (PRes.vs l, rest2) => some (PRes.vs (j :: l), rest2)
                | _ => none
              else if c2 = ']' then some (PRes.vs [j], r2)
              else none)
         | _ => none) := by
  rw [parseStep.eq_def]
  simp only []
  rw [skipWs_cons r hnws]

/-- Unfolding of the fields mode at a whitespace-free head. -/
theorem parseStep_fields_cons (f : Nat) (c : Char) (r : List Char)
    (hnws : isWsChar c = false) :
    parseStep (f + 1) PMode.fields (c :: r) =
      (if c = '}' then some (PRes.fs [], r)
       else if c = '"' then
         match parseStrBody r with
         | some (kcs, rest) =>
           (match skipWsL rest with
            | [] => none
            | c2 :: r2 =>
              if c2 = ':' then
                match parseStep f PMode.value r2 with
                | some (PRes.v j, rest2) =>
                  (match skipWsL rest2 with
                   | [] => none
                   | c3 :: r3 =>
                     if c3 = ',' then
                       match parseStep f PMode.fields r3 with
                       | some (PRes.fs l, rest3) =>
                         some (PRes.fs ((String.mk kcs, j) :: l), rest3)
                       | _ => none
                     else if c3 = '}' then some (PRes.fs [(String.mk kcs, j)], r3)
                     else none)
                | _ => none
              else none)
         | none => none
       else none) := by
  rw [parseStep.eq_def]
  simp only []
  rw [skipWs_cons r hnws]

theorem digit_ne {c : Char} (h : isDigitChar c = true) (x : Char)
    (hx : isDigitChar x = false) : c ≠ x := by
  intro he
  subst he
  rw [h] at hx
  cases hx

theorem renderInt_shape (i : Int) :
    ∃ c t, renderInt i = c :: t ∧ (c = '-' ∨ isDigitChar c = true) := by
  by_cases hi : i < 0
  · exact ⟨'-', natDigitsChars i.natAbs, by simp [renderInt, if_pos hi], Or.inl rfl⟩
  · obtain ⟨c, t, hshape, hcdig, _⟩ := natDigitsChars_shape i.toNat
    exact ⟨c, t, by simp [renderInt, if_neg hi, hshape], Or.inr hcdig⟩

/-- A rendered scalar followed by a non-digit tail parses back exactly. -/
theorem parse_scalar (v : Json) (hv : scalarSafe v = true)
    (f : Nat) (hf : 1 ≤ f) (rest : List Char) (hrest : noDigitHead rest = true) :
    parseStep f PMode.value (renderScalar v ++ rest) = some (PRes.v v, rest) := by
  obtain ⟨g, rfl⟩ : ∃ g, f = g + 1 := ⟨f - 1, by omega⟩
  cases v with
  | null => rfl
  | bool b => cases b <;> rfl
  | str s =>
    have hsafe : s.data.all safeChar = true := hv
    rw [show renderScalar (Json.str s) ++ rest = '"' :: (s.data ++ ('"' :: rest)) by
      simp [renderScalar, renderStr]]
    rw [parseStep_value_cons g '"' _ (by decide)]
    rw [if_pos rfl]
    rw [parseStrBody_safe s.data hsafe rest]
    rfl
  | num i =>
    obtain ⟨c, t, hshape, hc⟩ := renderInt_shape i
    have hnws : isWsChar c = false := by
      rcases hc with rfl | hdig
      · rfl
      · exact digit_not_ws hdig
    have hne : ∀ x : Char, isDigitChar x = false → x ≠ '-' → c ≠ x := by
      intro x hx hxm he
      rcases hc with rfl | hdig
      · exact hxm he.symm
      · exact digit_ne hdig x hx he
    rw [show renderScalar (Json.num i) ++ rest = c :: (t ++ rest) by
      simp [renderScalar, hshape]]
    rw [parseStep_value_cons g c _ hnws]
    rw [if_neg (hne '"' (by decide) (by decide))]
    rw [if_neg (hne 't' (by decide) (by decide))]
    rw [if_neg (hne 'f' (by decide) (by decide))]
    rw [if_neg (hne 'n' (by decide) (by decide))]
    rw [if_neg (hne '[' (by decide) (by decide))]
    rw [if_neg (hne '{' (by decide) (by decide))]
    rw [show c :: (t ++ rest) = renderInt i ++ rest by simp [hshape]]
    rw [parseNumL_renderInt i rest hrest]
    rfl
  | arr l => simp [scalarSafe] at hv
  | obj ms => simp [scalarSafe] at hv

/-! ## Round-trip lemmas: objects and fields -/

theorem upsert_of_fresh {α : Type} (k : String) (v : α) :
    ∀ acc : List (String × α), k ∉ acc.map Prod.fst → upsert k v acc = acc ++ [(k, v)] := by
  intro acc
  induction acc with
  | nil => intro _; rfl
  | cons h t ih =>
    obtain ⟨k0, v0⟩ := h
    intro hmem
    simp only [List.map_cons, List.mem_cons, not_or] at hmem
    simp only [upsert, if_neg (Ne.symm hmem.1), List.cons_append]
    rw [ih hmem.2]

theorem dictify_go :
    ∀ (l acc : List (String × Json)),
      (∀ k ∈ l.map Prod.fst, k ∉ acc.map Prod.fst) → (l.map Prod.fst).Nodup →
      l.foldl (fun a kv => upsert kv.1 kv.2 a) acc = acc ++ l := by
  intro l
  induction l with
  | nil => intro acc _ _; simp
  | cons h t ih =>
    obtain ⟨k, v⟩ := h
    intro acc hfresh hnd
    simp only [List.map_cons, List.nodup_cons] at hnd
    simp only [List.foldl_cons]
    rw [upsert_of_fresh k v acc (hfresh k (by simp))]
    rw [ih (acc ++ [(k, v)]) ?fresh hnd.2]
    · simp
    case fresh =>
      intro k' hk'
      simp only [List.map_append, List.mem_append, List.map_cons, List.map_nil,
        List.mem_singleton, not_or]
      refine ⟨hfresh k' (by simp [hk']), ?_⟩
      intro he
      subst he
      exact hnd.1 hk'

theorem dictify_eq_self (l : List (String × Json)) (h : (l.map Prod.fst).Nodup) :
    dictify l = l := by
  have := dictify_go l [] (by simp) h
  simpa [dictify] using this

theorem bFieldsWith_pos (bv : Json → Nat) :
    ∀ ms : List (String × Json), 1 ≤ bFieldsWith bv ms
  | [] => by simp [bFieldsWith]
  | _ :: t => by simp [bFieldsWith]; omega

/-- Fields of an object parse back exactly, given that each value parses
back (generic in the value renderer `rv` and its fuel bound `bv`). -/
theorem parse_fields_gen (rv : Json → List Char) (bv : Json → Nat) :
    ∀ (ms : List (String × Json)),
      (∀ p ∈ ms, ∀ (f : Nat) (rest' : List Char), bv p.2 ≤ f → noDigitHead rest' = true →
        parseStep f PMode.value (rv p.2 ++ rest') = some (PRes.v p.2, rest')) →
      (∀ p ∈ ms, safeStr p.1 = true) →
      ∀ (f : Nat) (rest : List Char), bFieldsWith bv ms ≤ f →
        parseStep f PMode.fields (renderFieldsWith rv ms ++ '}' :: rest)
          = some (PRes.fs ms, rest) := by
  intro ms
  induction ms with
  | nil =>
    intro _ _ f rest hf
    obtain ⟨g, rfl⟩ : ∃ g, f = g + 1 := ⟨f - 1, by have h1 : bFieldsWith bv [] = 1 := rfl; rw [h1] at hf; omega⟩
    rw [show renderFieldsWith rv [] ++ '}' :: rest = '}' :: rest from rfl]
    rw [parseStep_fields_cons g '}' rest (by decide)]
    rw [if_pos (by trivial)]
  | cons p t ih =>
    obtain ⟨k, v⟩ := p
    intro hv hk f rest hf
    simp only [bFieldsWith] at hf
    obtain ⟨g, rfl⟩ : ∃ g, f = g + 1 := ⟨f - 1, by omega⟩
    have hkv : safeStr k = true := hk (k, v) (by simp)
    have hvv := hv (k, v) (by simp)
    cases t with
    | nil =>
      rw [show renderFieldsWith rv [(k, v)] ++ '}' :: rest
            = '"' :: (k.data ++ ('"' :: (':' :: (rv v ++ '}' :: rest)))) by
        simp [renderFieldsWith, renderStr]]
      rw [parseStep_fields_cons g '"' _ (by decide)]
      rw [if_neg (by decide : ¬('"' : Char) = '}'), if_pos (by trivial)]
      rw [parseStrBody_safe k.data hkv _]
      simp only []
      rw [skipWs_cons _ (by decide : isWsChar ':' = false)]
      simp only []
      rw [if_pos (by trivial)]
      rw [hvv g ('}' :: rest) (by show bv v ≤ g; omega) rfl]
      simp only []
      rw [skipWs_cons _ (by decide : isWsChar '}' = false)]
      simp only []
      rw [if_neg (by decide : ¬('}' : Char) = ','), if_pos (by trivial)]
    | cons q t' =>
      rw [show renderFieldsWith rv ((k, v) :: q :: t') ++ '}' :: rest
            = '"' :: (k.data ++ ('"' :: (':' :: (rv v
                ++ (',' :: (renderFieldsWith rv (q :: t') ++ '}' :: rest)))))) by
        simp [renderFieldsWith, renderStr]]
      rw [parseStep_fields_cons g '"' _ (by decide)]
      rw [if_neg (by decide : ¬('"' : Char) = '}'), if_pos (by trivial)]
      rw [parseStrBody_safe k.data hkv _]
      simp only []
      rw [skipWs_cons _ (by decide : isWsChar ':' = false)]
      simp only []
      rw [if_pos (by trivial)]
      rw [hvv g (',' :: (renderFieldsWith rv (q :: t') ++ '}' :: rest)) (by show bv v ≤ g; omega) rfl]
      simp only []
      rw [skipWs_cons _ (by decide : isWsChar ',' = false)]
      simp only []
      rw [if_pos (by trivial)]
      rw [ih (fun p hp => hv p (List.mem_cons_of_mem _ hp))
          (fun p hp => hk p (List.mem_cons_of_mem _ hp)) g rest (by omega)]

theorem parse_val1 :
    ∀ (v : Json), val1Wf v →
      ∀ (f : Nat) (rest : List Char), bVal1 v ≤ f → noDigitHead rest = true →
        parseStep f PMode.value (renderVal1 v ++ rest) = some (PRes.v v, rest) := by
  intro v hwf f rest hb hrest
  cases v with
  | obj ms =>
    have hb' : 1 + bFieldsWith (fun _ => 1) ms ≤ f := hb
    obtain ⟨g, rfl⟩ : ∃ g, f = g + 1 := ⟨f - 1, by omega⟩
    rw [show renderVal1 (Json.obj ms) ++ rest
          = '{' :: (renderFieldsWith renderScalar ms ++ '}' :: rest) by
      simp [renderVal1]]
    rw [parseStep_value_cons g '{' _ (by decide)]
    rw [if_neg (by decide : ¬('{' : Char) = '"')]
    rw [if_neg (by decide : ¬('{' : Char) = 't')]
    rw [if_neg (by decide : ¬('{' : Char) = 'f')]
    rw [if_neg (by decide : ¬('{' : Char) = 'n')]
    rw [if_neg (by decide : ¬('{' : Char) = '[')]
    rw [if_pos (by trivial)]
    rw [parse_fields_gen renderScalar (fun _ => 1) ms
        (fun p hp f' r' h1 h2 => parse_scalar p.2 (hwf.1 p hp).2 f' h1 r' h2)
        (fun p hp => (hwf.1 p hp).1) g rest (by omega)]
    simp only []
    rw [dictify_eq_self ms hwf.2]
  | null => exact parse_scalar Json.null hwf f hb rest hrest
  | bool b => exact parse_scalar (Json.bool b) hwf f hb rest hrest
  | num i => exact parse_scalar (Json.num i) hwf f hb rest hrest
  | str s => exact parse_scalar (Json.str s) hwf f hb rest hrest
  | arr l => exact absurd (show (false : Bool) = true from hwf) (by decide)

theorem stepFields_nodup (s : StepDoc) : ((stepFields s).map Prod.fst).Nodup := by
  cases harg : s.args with
  | none => simp [stepFields, harg]
  | some ms => simp [stepFields, harg]

theorem bStep_ge2 (s : StepDoc) : 2 ≤ bStep s := by
  have := bFieldsWith_pos bVal1 (stepFields s)
  have h : bStep s = 1 + bFieldsWith bVal1 (stepFields s) := rfl
  omega

/-- A rendered step object parses back to its JSON object. -/
theorem parse_stepJ (s : StepDoc) (hwf : wfStep s) :
    ∀ (f : Nat) (rest : List Char), bStep s ≤ f → noDigitHead rest = true →
      parseStep f PMode.value (renderStepJ s ++ rest) = some (PRes.v (stepJson s), rest) := by
  intro f rest hb hrest
  have hb2 := bStep_ge2 s
  obtain ⟨g, rfl⟩ : ∃ g, f = g + 1 := ⟨f - 1, by omega⟩
  rw [show renderStepJ s ++ rest = '{' :: (renderFields (stepFields s) ++ '}' :: rest) by
    simp [renderStepJ]]
  rw [parseStep_value_cons g '{' _ (by decide)]
  rw [if_neg (by decide : ¬('{' : Char) = '"')]
  rw [if_neg (by decide : ¬('{' : Char) = 't')]
  rw [if_neg (by decide : ¬('{' : Char) = 'f')]
  rw [if_neg (by decide : ¬('{' : Char) = 'n')]
  rw [if_neg (by decide : ¬('{' : Char) = '[')]
  rw [if_pos (by trivial)]
  rw [show renderFields = renderFieldsWith renderVal1 from rfl]
  rw [parse_fields_gen renderVal1 bVal1 (stepFields s) ?hv ?hk g rest ?bnd]
  · simp only []
    rw [dictify_eq_self _ (stepFields_nodup s)]
    rfl
  case hv =>
    intro p hp f' r' h1 h2
    apply parse_val1 p.2 ?wf f' r' h1 h2
    case wf =>
      obtain ⟨hd, ht, ha⟩ := hwf
      cases harg : s.args with
      | none =>
        rw [stepFields, harg] at hp
        simp only [List.mem_cons, List.not_mem_nil, or_false] at hp
        rcases hp with rfl | rfl | rfl
        · exact rfl
        · exact hd
        · exact ht
      | some ms =>
        rw [stepFields, harg] at hp
        simp only [List.mem_cons, List.not_mem_nil, or_false] at hp
        rcases hp with rfl | rfl | rfl | rfl
        · exact rfl
        · exact hd
        · exact ht
        · rw [harg] at ha; exact ha
  case hk =>
    intro p hp
    cases harg : s.args with
    | none =>
      rw [stepFields, harg] at hp
      simp only [List.mem_cons, List.not_mem_nil, or_false] at hp
      rcases hp with rfl | rfl | rfl <;> rfl
    | some ms =>
      rw [stepFields, harg] at hp
      simp only [List.mem_cons, List.not_mem_nil, or_false] at hp
      rcases hp with rfl | rfl | rfl | rfl <;> rfl
  case bnd =>
    have h : bStep s = 1 + bFieldsWith bVal1 (stepFields s) := rfl
    omega

theorem bSteps_pos : ∀ ss : List StepDoc, 1 ≤ bSteps ss
  | [] => by simp [bSteps]
  | s :: t => by have := bSteps_pos t; simp [bSteps]; omega

/-- A comma-joined list of rendered steps parses back in items mode. -/
theorem parse_items :
    ∀ (ss : List StepDoc), (∀ s ∈ ss, wfStep s) →
      ∀ (f : Nat) (rest : List Char), bSteps ss ≤ f →
        parseStep f PMode.items (renderSteps ss ++ ']' :: rest)
          = some (PRes.vs (ss.map stepJson), rest) := by
  intro ss
  induction ss with
  | nil =>
    intro _ f rest hf
    obtain ⟨g, rfl⟩ : ∃ g, f = g + 1 := ⟨f - 1, by have h : bSteps [] = 1 := rfl; omega⟩
    rw [show renderSteps [] ++ ']' :: rest = ']' :: rest from rfl]
    rw [parseStep_items_cons g ']' rest (by decide)]
    rw [if_pos (by trivial)]
    rfl
  | cons s t ih =>
    intro hwf f rest hf
    have hst : bSteps (s :: t) = 1 + bStep s + bSteps t := rfl
    obtain ⟨g, rfl⟩ : ∃ g, f = g + 1 := ⟨f - 1, by omega⟩
    have hws : wfStep s := hwf s (by simp)
    cases t with
    | nil =>
      rw [show renderSteps [s] ++ ']' :: rest
            = '{' :: (renderFields (stepFields s) ++ '}' :: (']' :: rest)) by
        simp [renderSteps, renderStepJ]]
      rw [parseStep_items_cons g '{' _ (by decide)]
      rw [if_neg (by decide : ¬('{' : Char) = ']')]
      rw [show '{' :: (renderFields (stepFields s) ++ '}' :: (']' :: rest))
            = renderStepJ s ++ ']' :: rest by simp [renderStepJ]]
      rw [parse_stepJ s hws g (']' :: rest) (by omega) rfl]
      simp only []
      rw [skipWs_cons _ (by decide : isWsChar ']' = false)]
      simp only []
      rw [if_neg (by decide : ¬(']' : Char) = ','), if_pos (by trivial)]
      rfl
    | cons s2 t' =>
      rw [show renderSteps (s :: s2 :: t') ++ ']' :: rest
            = '{' :: (renderFields (stepFields s)
                ++ '}' :: (',' :: (renderSteps (s2 :: t') ++ ']' :: rest))) by
        simp [renderSteps, renderStepJ]]
      rw [parseStep_items_cons g '{' _ (by decide)]
      rw [if_neg (by decide : ¬('{' : Char) = ']')]
      rw [show '{' :: (renderFields (stepFields s)
            ++ '}' :: (',' :: (renderSteps (s2 :: t') ++ ']' :: rest)))
            = renderStepJ s ++ ',' :: (renderSteps (s2 :: t') ++ ']' :: rest) by
        simp [renderStepJ]]
      rw [parse_stepJ s hws g (',' :: (renderSteps (s2 :: t') ++ ']' :: rest)) (by omega) rfl]
      simp only []
      rw [skipWs_cons _ (by decide : isWsChar ',' = false)]
      simp only []
      rw [if_pos (by trivial)]
      rw [ih (fun x hx => hwf x (List.mem_cons_of_mem _ hx)) g rest (by omega)]
      rfl

/-- A rendered steps array parses back in value mode. -/
theorem parse_steps_arr (ss : List StepDoc) (hwf : ∀ s ∈ ss, wfStep s) :
    ∀ (f : Nat) (rest : List Char), 1 + bSteps ss ≤ f →
      parseStep f PMode.value ('[' :: (renderSteps ss ++ ']' :: rest))
        = some (PRes.v (Json.arr (ss.map stepJson)), rest) := by
  intro f rest hf
  obtain ⟨g, rfl⟩ : ∃ g, f = g + 1 := ⟨f - 1, by omega⟩
  rw [parseStep_value_cons g '[' _ (by decide)]
  rw [if_neg (by decide : ¬('[' : Char) = '"')]
  rw [if_neg (by decide : ¬('[' : Char) = 't')]
  rw [if_neg (by decide : ¬('[' : Char) = 'f')]
  rw [if_neg (by decide : ¬('[' : Char) = 'n')]
  rw [if_pos (by trivial)]
  rw [parse_items ss hwf g rest (by omega)]

theorem docFields_nodup (d : PlanDoc) : ((docFields d).map Prod.fst).Nodup := by
  cases hs : d.summary with
  | none => simp [docFields, hs]
  | some sm => simp [docFields, hs]

/-- A rendered plan document parses back to its JSON object. -/
theorem parse_docJ (d : PlanDoc) (hwf : wfDoc d) :
    ∀ (f : Nat) (rest : List Char), bDoc d ≤ f →
      parseStep f PMode.value (renderDoc d ++ rest) = some (PRes.v (docJson d), rest) := by
  intro f rest hf
  have hbd : bDoc d = 4 + bSteps d.steps := rfl
  obtain ⟨g, rfl⟩ : ∃ g, f = g + 1 := ⟨f - 1, by omega⟩
  rw [show renderDoc d ++ rest = '{' :: (docBody d ++ '}' :: rest) by simp [renderDoc]]
  rw [parseStep_value_cons g '{' _ (by decide)]
  rw [if_neg (by decide : ¬('{' : Char) = '"')]
  rw [if_neg (by decide : ¬('{' : Char) = 't')]
  rw [if_neg (by decide : ¬('{' : Char) = 'f')]
  rw [if_neg (by decide : ¬('{' : Char) = 'n')]
  rw [if_neg (by decide : ¬('{' : Char) = '[')]
  rw [if_pos (by trivial)]
  obtain ⟨g1, rfl⟩ : ∃ g1, g = g1 + 1 := ⟨g - 1, by omega⟩
  cases hs : d.summary with
  | some sm =>
    rw [show docBody d ++ '}' :: rest
          = '"' :: ("summary".data ++ ('"' :: (':' :: (renderStr sm
              ++ (',' :: (('"' :: ("steps".data ++ ['"'])) ++ ':' :: '[' ::
                  (renderSteps d.steps ++ ']' :: ('}' :: rest)))))))) by
      simp [docBody, hs, renderStr]]
    rw [parseStep_fields_cons g1 '"' _ (by decide)]
    rw [if_neg (by decide : ¬('"' : Char) = '}'), if_pos (by trivial)]
    rw [parseStrBody_safe "summary".data (by decide) _]
    simp only []
    rw [skipWs_cons _ (by decide : isWsChar ':' = false)]
    simp only []
    rw [if_pos (by trivial)]
    have hsm : scalarSafe (Json.str sm) = true := by
      have h1 := hwf.1
      rw [hs] at h1
      exact h1
    rw [show renderStr sm ++ (',' :: (('"' :: ("steps".data ++ ['"'])) ++ ':' :: '[' ::
          (renderSteps d.steps ++ ']' :: ('}' :: rest))))
          = renderScalar (Json.str sm) ++ (',' :: (('"' :: ("steps".data ++ ['"']))
              ++ ':' :: '[' :: (renderSteps d.steps ++ ']' :: ('}' :: rest)))) from rfl]
    rw [parse_scalar (Json.str sm) hsm g1 (by omega)
        (',' :: (('"' :: ("steps".data ++ ['"'])) ++ ':' :: '[' ::
          (renderSteps d.steps ++ ']' :: ('}' :: rest)))) rfl]
    simp only []
    rw [skipWs_cons _ (by decide : isWsChar ',' = false)]
    simp only []
    rw [if_pos (by trivial)]
    obtain ⟨g2, rfl⟩ : ∃ g2, g1 = g2 + 1 := ⟨g1 - 1, by omega⟩
    rw [show ('"' :: ("steps".data ++ ['"'])) ++ ':' :: '[' ::
          (renderSteps d.steps ++ ']' :: ('}' :: rest))
          = '"' :: ("steps".data ++ ('"' :: (':' :: ('[' ::
              (renderSteps d.steps ++ ']' :: ('}' :: rest)))))) by simp]
    rw [parseStep_fields_cons g2 '"' _ (by decide)]
    rw [if_neg (by decide : ¬('"' : Char) = '}'), if_pos (by trivial)]
    rw [parseStrBody_safe "steps".data (by decide) _]
    simp only []
    rw [skipWs_cons _ (by decide : isWsChar ':' = false)]
    simp only []
    rw [if_pos (by trivial)]
    rw [parse_steps_arr d.steps hwf.2 g2 ('}' :: rest) (by omega)]
    simp only []
    rw [skipWs_cons _ (by decide : isWsChar '}' = false)]
    simp only []
    rw [if_neg (by decide : ¬('}' : Char) = ','), if_pos (by trivial)]
    simp only []
    rw [show docJson d = Json.obj (docFields d) from rfl]
    rw [show dictify [("summary", Json.str sm), ("steps", Json.arr (d.steps.map stepJson))]
          = [("summary", Json.str sm), ("steps", Json.arr (d.steps.map stepJson))] from
      dictify_eq_self _ (by simp)]
    rw [show docFields d
          = [("summary", Json.str sm), ("steps", Json.arr (d.steps.map stepJson))] by
      simp [docFields, hs]]
  | none =>
    rw [show docBody d ++ '}' :: rest
          = '"' :: ("steps".data ++ ('"' :: (':' :: ('[' ::
              (renderSteps d.steps ++ ']' :: ('}' :: rest)))))) by
      simp [docBody, hs, renderStr]]
    rw [parseStep_fields_cons g1 '"' _ (by decide)]
    rw [if_neg (by decide : ¬('"' : Char) = '}'), if_pos (by trivial)]
    rw [parseStrBody_safe "steps".data (by decide) _]
    simp only []
    rw [skipWs_cons _ (by decide : isWsChar ':' = false)]
    simp only []
    rw [if_pos (by trivial)]
    rw [parse_steps_arr d.steps hwf.2 g1 ('}' :: rest) (by omega)]
    simp only []
    rw [skipWs_cons _ (by decide : isWsChar '}' = false)]
    simp only []
    rw [if_neg (by decide : ¬('}' : Char) = ','), if_pos (by trivial)]
    simp only []
    rw [show docJson d = Json.obj (docFields d) from rfl]
    rw [show dictify [("steps", Json.arr (d.steps.map stepJson))]
          = [("steps", Json.arr (d.steps.map stepJson))] from
      dictify_eq_self _ (by simp)]
    rw [show docFields d = [("steps", Json.arr (d.steps.map stepJson))] by
      simp [docFields, hs]]

/-! ## Fuel-versus-length bounds -/

theorem bFieldsWith_le (bv : Json → Nat) (rv : Json → List Char) :
    ∀ ms : List (String × Json), (∀ p ∈ ms, bv p.2 ≤ (rv p.2).length + 1) →
      bFieldsWith bv ms ≤ (renderFieldsWith rv ms).length + 1 := by
  intro ms
  induction ms with
  | nil => intro _; simp [bFieldsWith, renderFieldsWith]
  | cons p t ih =>
    obtain ⟨k, v⟩ := p
    intro h
    have hv := h (k, v) (by simp)
    simp only at hv
    cases t with
    | nil =>
      simp only [bFieldsWith, renderFieldsWith, renderStr, List.length_append,
        List.length_cons, List.length_nil]
      omega
    | cons q t' =>
      have ih' := ih (fun p hp => h p (List.mem_cons_of_mem _ hp))
      simp only [bFieldsWith, renderFieldsWith, renderStr, List.length_append,
        List.length_cons, List.length_nil] at ih' ⊢
      omega

theorem bVal1_le : ∀ v : Json, bVal1 v ≤ (renderVal1 v).length + 1 := by
  intro v
  cases v with
  | obj ms =>
    have h := bFieldsWith_le (fun _ => 1) renderScalar ms
      (fun p _ => by show (1 : Nat) ≤ _ + 1; omega)
    simp only [bVal1, renderVal1, List.length_cons, List.length_append, List.length_nil]
    omega
  | null => show (1 : Nat) ≤ _ + 1; omega
  | bool b => show (1 : Nat) ≤ _ + 1; omega
  | num i => show (1 : Nat) ≤ _ + 1; omega
  | str s => show (1 : Nat) ≤ _ + 1; omega
  | arr l => show (1 : Nat) ≤ _ + 1; omega

theorem bStep_le (s : StepDoc) : bStep s ≤ (renderStepJ s).length := by
  have h := bFieldsWith_le bVal1 renderVal1 (stepFields s) (fun p _ => bVal1_le p.2)
  have h1 : bStep s = 1 + bFieldsWith bVal1 (stepFields s) := rfl
  have h2 : (renderStepJ s).length
      = (renderFieldsWith renderVal1 (stepFields s)).length + 2 := by
    simp [renderStepJ, renderFields]
  omega

theorem bSteps_le : ∀ ss : List StepDoc, bSteps ss ≤ (renderSteps ss).length + 2 := by
  intro ss
  induction ss with
  | nil => simp [bSteps, renderSteps]
  | cons s t ih =>
    have hs := bStep_le s
    cases t with
    | nil =>
      have h1 : bSteps [s] = 1 + bStep s + 1 := rfl
      have h2 : (renderSteps [s]).length = (renderStepJ s).length := rfl
      omega
    | cons s2 t' =>
      have h1 : bSteps (s :: s2 :: t') = 1 + bStep s + bSteps (s2 :: t') := rfl
      have h2 : renderSteps (s :: s2 :: t')
          = renderStepJ s ++ ',' :: renderSteps (s2 :: t') := rfl
      rw [h2] at *
      simp only [List.length_append, List.length_cons] at *
      omega

theorem bDoc_le (d : PlanDoc) : bDoc d ≤ (renderDoc d).length + 1 := by
  have hs := bSteps_le d.steps
  have h1 : bDoc d = 4 + bSteps d.steps := rfl
  cases hsm : d.summary with
  | none =>
    have h2 : (renderDoc d).length = (docBody d).length + 2 := by simp [renderDoc]
    have h3 : (docBody d).length = (renderSteps d.steps).length + 10 := by
      simp [docBody, hsm, renderStr]
    omega
  | some sm =>
    have h2 : (renderDoc d).length = (docBody d).length + 2 := by simp [renderDoc]
    have h3 : (renderSteps d.steps).length + 10 ≤ (docBody d).length := by
      simp [docBody, hsm, renderStr]
      omega
    omega

/-- `json.loads` recovers the document's JSON value from its rendering. -/
theorem jsonLoads_renderDoc (d : PlanDoc) (hwf : wfDoc d) :
    jsonLoads (renderDoc d) = some (docJson d) := by
  unfold jsonLoads
  have h := parse_docJ d hwf ((renderDoc d).length + 1) [] (bDoc_le d)
  rw [List.append_nil] at h
  rw [h]
  rfl

/-! ## Plan construction from the parsed JSON -/

theorem buildStep_stepJson (s : StepDoc) :
    buildStep (stepJson s) = some ⟨s.n, s.description, s.tool, s.args.getD []⟩ := by
  obtain ⟨n, de, tl, args⟩ := s
  cases args <;> rfl

theorem mapM_buildStep :
    ∀ ss : List StepDoc,
      (ss.map stepJson).mapM buildStep
        = some (ss.map (fun s => (⟨s.n, s.description, s.tool, s.args.getD []⟩ : PlanStep))) := by
  intro ss
  induction ss with
  | nil => rfl
  | cons s t ih =>
    simp only [List.map_cons, List.mapM_cons, buildStep_stepJson s, ih]
    rfl

theorem buildPlan_docJson (d : PlanDoc) : buildPlan (docJson d) = some (planOfDoc d) := by
  obtain ⟨sm, ss⟩ := d
  have hm := mapM_buildStep ss
  cases sm with
  | none =>
    rw [show buildPlan (docJson ⟨none, ss⟩)
          = ((ss.map stepJson).mapM buildStep).map
              (fun st => (⟨"No summary", st⟩ : Plan)) from rfl]
    rw [hm]
    rfl
  | some sm' =>
    rw [show buildPlan (docJson ⟨some sm', ss⟩)
          = ((ss.map stepJson).mapM buildStep).map (fun st => (⟨sm', st⟩ : Plan)) from rfl]
    rw [hm]
    rfl

/-! ## The rendered document contains no backtick -/

theorem bt_not_in_natDigits (n : Nat) : '`' ∉ natDigitsChars n := by
  intro hm
  have := natDigitsChars_all_digit n '`' hm
  exact absurd this (by decide)

theorem bt_not_in_renderInt (i : Int) : '`' ∉ renderInt i := by
  intro hm
  unfold renderInt at hm
  by_cases hi : i < 0
  · rw [if_pos hi] at hm
    rcases List.mem_cons.mp hm with h | h
    · cases h
    · exact bt_not_in_natDigits _ h
  · rw [if_neg hi] at hm
    exact bt_not_in_natDigits _ hm

theorem safeChar_ne_bt {c : Char} (h : safeChar c = true) : c ≠ '`' := by
  intro he
  subst he
  exact absurd h (by decide)

theorem bt_not_in_renderStr (s : String) (hs : safeStr s = true) : '`' ∉ renderStr s := by
  intro hm
  unfold renderStr at hm
  rcases List.mem_cons.mp hm with h | h
  · cases h
  · rcases List.mem_append.mp h with h2 | h2
    · have := List.all_eq_true.mp hs '`' h2
      exact absurd this (by decide)
    · simp only [List.mem_singleton] at h2
      cases h2

theorem bt_not_in_renderScalar (v : Json) (hv : scalarSafe v = true) :
    '`' ∉ renderScalar v := by
  cases v with
  | null => decide
  | bool b => cases b <;> decide
  | num i => exact bt_not_in_renderInt i
  | str s => exact bt_not_in_renderStr s hv
  | arr l =>
    show '`' ∉ (['n', 'u', 'l', 'l'] : List Char)
    decide
  | obj ms =>
    show '`' ∉ (['n', 'u', 'l', 'l'] : List Char)
    decide

theorem bt_not_in_renderFieldsWith (rv : Json → List Char) :
    ∀ ms : List (String × Json),
      (∀ p ∈ ms, safeStr p.1 = true ∧ '`' ∉ rv p.2) →
      '`' ∉ renderFieldsWith rv ms := by
  intro ms
  induction ms with
  | nil => intro _; simp [renderFieldsWith]
  | cons p t ih =>
    obtain ⟨k, v⟩ := p
    intro h hm
    have hk := (h (k, v) (by simp)).1
    have hv := (h (k, v) (by simp)).2
    cases t with
    | nil =>
      simp only [renderFieldsWith] at hm
      rcases List.mem_append.mp hm with h2 | h2
      · exact bt_not_in_renderStr k hk h2
      · rcases List.mem_cons.mp h2 with h3 | h3
        · cases h3
        · exact hv h3
    | cons q t' =>
      simp only [renderFieldsWith] at hm
      rcases List.mem_append.mp hm with h2 | h2
      · rcases List.mem_append.mp h2 with h3 | h3
        · exact bt_not_in_renderStr k hk h3
        · rcases List.mem_cons.mp h3 with h4 | h4
          · cases h4
          · exact hv h4
      · rcases List.mem_cons.mp h2 with h3 | h3
        · cases h3
        · exact ih (fun p hp => h p (List.mem_cons_of_mem _ hp)) h3

theorem bt_not_in_renderVal1 (v : Json) (hv : val1Wf v) : '`' ∉ renderVal1 v := by
  cases v with
  | obj ms =>
    intro hm
    simp only [renderVal1] at hm
    rcases List.mem_cons.mp hm with h | h
    · cases h
    · rcases List.mem_append.mp h with h2 | h2
      · exact bt_not_in_renderFieldsWith renderScalar ms
          (fun p hp => ⟨(hv.1 p hp).1, bt_not_in_renderScalar p.2 (hv.1 p hp).2⟩) h2
      · simp only [List.mem_singleton] at h2
        cases h2
  | null => exact bt_not_in_renderScalar Json.null hv
  | bool b => exact bt_not_in_renderScalar (Json.bool b) hv
  | num i => exact bt_not_in_renderScalar (Json.num i) hv
  | str s => exact bt_not_in_renderScalar (Json.str s) hv
  | arr l => exact absurd (show (false : Bool) = true from hv) (by decide)

theorem bt_not_in_renderStepJ (s : StepDoc) (hs : wfStep s) : '`' ∉ renderStepJ s := by
  intro hm
  simp only [renderStepJ] at hm
  rcases List.mem_cons.mp hm with h | h
  · cases h
  · rcases List.mem_append.mp h with h2 | h2
    · rw [show renderFields = renderFieldsWith renderVal1 from rfl] at h2
      refine bt_not_in_renderFieldsWith renderVal1 (stepFields s) ?_ h2
      intro p hp
      obtain ⟨hd, ht, ha⟩ := hs
      cases harg : s.args with
      | none =>
        rw [stepFields, harg] at hp
        simp only [List.mem_cons, List.not_mem_nil, or_false] at hp
        rcases hp with rfl | rfl | rfl
        · exact ⟨rfl, bt_not_in_renderVal1 _ rfl⟩
        · exact ⟨rfl, bt_not_in_renderVal1 _ hd⟩
        · exact ⟨rfl, bt_not_in_renderVal1 _ ht⟩
      | some ms =>
        rw [stepFields, harg] at hp
        simp only [List.mem_cons, List.not_mem_nil, or_false] at hp
        rcases hp with rfl | rfl | rfl | rfl
        · exact ⟨rfl, bt_not_in_renderVal1 _ rfl⟩
        · exact ⟨rfl, bt_not_in_renderVal1 _ hd⟩
        · exact ⟨rfl, bt_not_in_renderVal1 _ ht⟩
        · rw [harg] at ha
          exact ⟨rfl, bt_not_in_renderVal1 _ ha⟩
    · simp only [List.mem_singleton] at h2
      cases h2

theorem bt_not_in_renderSteps :
    ∀ ss : List StepDoc, (∀ s ∈ ss, wfStep s) → '`' ∉ renderSteps ss := by
  intro ss
  induction ss with
  | nil => intro _; simp [renderSteps]
  | cons s t ih =>
    intro h hm
    cases t with
    | nil => exact bt_not_in_renderStepJ s (h s (by simp)) hm
    | cons s2 t' =>
      simp only [renderSteps] at hm
      rcases List.mem_append.mp hm with h2 | h2
      · exact bt_not_in_renderStepJ s (h s (by simp)) h2
      · rcases List.mem_cons.mp h2 with h3 | h3
        · cases h3
        · exact ih (fun x hx => h x (List.mem_cons_of_mem _ hx)) h3

theorem docBody_none (steps : List StepDoc) :
    docBody ⟨none, steps⟩ =
      renderStr "steps" ++ (':' :: ('[' :: (renderSteps steps ++ [']']))) := by
  simp [docBody, List.append_assoc]

theorem docBody_some (sm : String) (steps : List StepDoc) :
    docBody ⟨some sm, steps⟩ =
      renderStr "summary" ++ (':' :: (renderStr sm ++ (',' ::
        (renderStr "steps" ++ (':' :: ('[' :: (renderSteps steps ++ [']']))))))) := by
  simp [docBody, List.append_assoc]

theorem bt_not_in_renderDoc (d : PlanDoc) (hd : wfDoc d) : '`' ∉ renderDoc d := by
  obtain ⟨osm, steps⟩ := d
  intro hm
  have hst : '`' ∉ renderSteps steps := bt_not_in_renderSteps steps hd.2
  have hsk : '`' ∉ renderStr "steps" := bt_not_in_renderStr "steps" (by decide)
  rcases List.mem_cons.mp hm with h | h
  · cases h
  · rcases List.mem_append.mp h with h2 | h2
    · cases osm with
      | none =>
        rw [docBody_none] at h2
        rcases List.mem_append.mp h2 with h3 | h3
        · exact hsk h3
        · rcases List.mem_cons.mp h3 with h4 | h4
          · cases h4
          · rcases List.mem_cons.mp h4 with h5 | h5
            · cases h5
            · rcases List.mem_append.mp h5 with h6 | h6
              · exact hst h6
              · simp only [List.mem_singleton] at h6
                cases h6
      | some sm =>
        rw [docBody_some] at h2
        rcases List.mem_append.mp h2 with h3 | h3
        · exact bt_not_in_renderStr "summary" (by decide) h3
        · rcases List.mem_cons.mp h3 with h4 | h4
          · cases h4
          · rcases List.mem_append.mp h4 with h5 | h5
            · exact bt_not_in_renderStr sm hd.1 h5
            · rcases List.mem_cons.mp h5 with h6 | h6
              · cases h6
              · rcases List.mem_append.mp h6 with h7 | h7
                · exact hsk h7
                · rcases List.mem_cons.mp h7 with h8 | h8
                  · cases h8
                  · rcases List.mem_cons.mp h8 with h9 | h9
                    · cases h9
                    · rcases List.mem_append.mp h9 with h10 | h10
                      · exact hst h10
                      · simp only [List.mem_singleton] at h10
                        cases h10
    · simp only [List.mem_singleton] at h2
      cases h2

/-! ## Leading/trailing stripping around a brace-delimited block -/

theorem dropWhile_append_stop {p : Char → Bool} {a : Char} (ha : p a = false) :
    ∀ (l r : List Char), (l ++ a :: r).dropWhile p = l.dropWhile p ++ a :: r := by
  intro l r
  induction l with
  | nil => simp [List.dropWhile_cons, ha]
  | cons c t ih =>
    by_cases h : p c
    · simp [List.dropWhile_cons, h, ih]
    · simp [List.dropWhile_cons, h]

theorem dropWhile_idem (p : Char → Bool) (l : List Char) :
    (l.dropWhile p).dropWhile p = l.dropWhile p := by
  induction l with
  | nil => rfl
  | cons c t ih =>
    by_cases h : p c
    · simp [List.dropWhile_cons, h, ih]
    · simp [List.dropWhile_cons, h]

theorem mem_pyStripL {c : Char} {l : List Char} (h : c ∈ pyStripL l) : c ∈ l := by
  unfold pyStripL at h
  rw [List.mem_reverse] at h
  have h2 := (List.dropWhile_sublist _).mem h
  rw [List.mem_reverse] at h2
  exact (List.dropWhile_sublist _).mem h2

theorem pyStripL_around {a b : Char} (ha : isWsChar a = false) (hb : isWsChar b = false)
    (p mid q : List Char) :
    pyStripL (p ++ (a :: (mid ++ [b])) ++ q)
      = p.dropWhile isWsChar ++ (a :: (mid ++ [b]))
          ++ (q.reverse.dropWhile isWsChar).reverse := by
  have h1 : p ++ (a :: (mid ++ [b])) ++ q = p ++ a :: (mid ++ b :: q) := by
    simp [List.append_assoc]
  have h2 : (p.dropWhile isWsChar ++ a :: (mid ++ b :: q)).reverse
      = q.reverse ++ b :: (mid.reverse ++ a :: (p.dropWhile isWsChar).reverse) := by
    simp [List.append_assoc]
  unfold pyStripL
  rw [h1, dropWhile_append_stop ha, h2, dropWhile_append_stop hb]
  simp [List.append_assoc]

/-! ## The two fence substitutions are the identity on backtick-free text -/

theorem stripPre_bt_cons {c : Char} (t : List Char) (hc : c ≠ '`') :
    stripPre ['`', '`', '`'] (c :: t) = none := by
  simp [stripPre, hc]

theorem stripPre_bt_none {cs : List Char} (h : '`' ∉ cs) :
    stripPre ['`', '`', '`'] cs = none := by
  cases cs with
  | nil => rfl
  | cons c t =>
    exact stripPre_bt_cons t (fun he => h (List.mem_cons.mpr (Or.inl he.symm)))

theorem sub1_nil (f : Nat) (b : Bool) : sub1 f b [] = [] := by
  cases f <;> rfl

theorem sub1_cons_of_none (f : Nat) (b : Bool) (c : Char) (t : List Char)
    (hnone : stripPre ['`', '`', '`'] (c :: t) = none) :
    sub1 (f + 1) b (c :: t) = c :: sub1 f (c = '\n') t := by
  cases b <;> simp [sub1, hnone]

theorem sub1_id : ∀ (f : Nat) (b : Bool) (cs : List Char), '`' ∉ cs → sub1 f b cs = cs := by
  intro f
  induction f with
  | zero => intro b cs _; rfl
  | succ f ih =>
    intro b cs h
    cases cs with
    | nil => rfl
    | cons c t =>
      rw [sub1_cons_of_none f b c t (stripPre_bt_none h)]
      rw [ih _ t (fun hm => h (List.mem_cons_of_mem _ hm))]

theorem sub2Attempt_none {cs : List Char} (h : '`' ∉ cs) : sub2Attempt cs = none := by
  have h1 : '`' ∉ cs.dropWhile isWsChar := fun hm => h ((List.dropWhile_sublist _).mem hm)
  simp only [sub2Attempt]
  rw [stripPre_bt_none h1]

theorem sub2_id : ∀ (f : Nat) (cs : List Char), '`' ∉ cs → sub2 f cs = cs := by
  intro f
  induction f with
  | zero => intro cs _; rfl
  | succ f ih =>
    intro cs h
    cases cs with
    | nil => rfl
    | cons c t =>
      simp [sub2, sub2Attempt_none h, ih t (fun hm => h (List.mem_cons_of_mem _ hm))]

/-! ## Removing a closing fence, and the opening-fence first step -/

theorem sub1_fence :
    ∀ (m : List Char), '`' ∉ m → ∀ (f : Nat) (b : Bool), m.length + 2 ≤ f →
      sub1 f b (m ++ ['\n', '`', '`', '`']) = m ++ ['\n'] := by
  intro m
  induction m with
  | nil =>
    intro _ f b hf
    obtain ⟨f2, rfl⟩ : ∃ f2, f = f2 + 1 + 1 := ⟨f - 2, by omega⟩
    rw [List.nil_append, List.nil_append]
    rw [sub1_cons_of_none (f2 + 1) b '\n' ['`', '`', '`'] (by decide)]
    show '\n' :: sub1 f2 false [] = ['\n']
    rw [sub1_nil]
  | cons c m ih =>
    intro h f b hf
    obtain ⟨f1, rfl⟩ : ∃ f1, f = f1 + 1 := ⟨f - 1, by omega⟩
    have hc : c ≠ '`' := fun he => h (List.mem_cons.mpr (Or.inl he.symm))
    have hm : '`' ∉ m := fun hmm => h (List.mem_cons_of_mem _ hmm)
    rw [List.cons_append]
    rw [sub1_cons_of_none f1 b c (m ++ ['\n', '`', '`', '`']) (stripPre_bt_cons _ hc)]
    rw [ih hm f1 _ (by simp at hf; omega)]
    rfl

theorem sub1_open (f : Nat) (body tail : List Char) :
    sub1 (f + 1) true
        ('`' :: '`' :: '`' :: 'j' :: 's' :: 'o' :: 'n' :: '\n' :: '{' :: (body ++ tail))
      = sub1 f true ('{' :: (body ++ tail)) := rfl

/-! ## The greedy brace span -/

theorem extractBrace_exact {p q : List Char} (mid : List Char)
    (hp : '{' ∉ p) (hq : '}' ∉ q) :
    extractBrace (p ++ ('{' :: (mid ++ ['}'])) ++ q) = some ('{' :: (mid ++ ['}'])) := by
  have h1 : p ++ ('{' :: (mid ++ ['}'])) ++ q = p ++ '{' :: (mid ++ '}' :: q) := by
    simp [List.append_assoc]
  have hp0 : p.dropWhile (· ≠ '{') = [] := by
    rw [List.dropWhile_eq_nil_iff]
    intro x hx
    simp only [ne_eq, decide_eq_true_eq]
    intro he
    exact hp (he ▸ hx)
  have hq0 : q.reverse.dropWhile (· ≠ '}') = [] := by
    rw [List.dropWhile_eq_nil_iff]
    intro x hx
    simp only [ne_eq, decide_eq_true_eq]
    intro he
    exact hq (he ▸ (List.mem_reverse.mp hx))
  have h2 : ('{' :: (mid ++ '}' :: q)).reverse
      = q.reverse ++ '}' :: (mid.reverse ++ ['{']) := by
    simp [List.append_assoc]
  simp only [extractBrace]
  rw [h1, dropWhile_append_stop (by decide), hp0, List.nil_append, h2,
    dropWhile_append_stop (by decide), hq0, List.nil_append]
  simp [List.append_assoc]

/-! ## `_parse_plan_json` on a rendered document with surrounding prose -/

theorem parse_embedded (d : PlanDoc) (hwf : wfDoc d) (pre post : List Char)
    (hpb : '{' ∉ pre) (hpt : '`' ∉ pre) (hqb : '}' ∉ post) (hqt : '`' ∉ post) :
    parse_plan_json (String.mk (pre ++ renderDoc d ++ post)) = some (planOfDoc d) := by
  have hblock : renderDoc d = '{' :: (docBody d ++ ['}']) := rfl
  have hbt : '`' ∉ pre.dropWhile isWsChar ++ ('{' :: (docBody d ++ ['}']))
      ++ (post.reverse.dropWhile isWsChar).reverse := by
    intro hm
    rcases List.mem_append.mp hm with h1 | h1
    · rcases List.mem_append.mp h1 with h2 | h2
      · exact hpt ((List.dropWhile_sublist _).mem h2)
      · exact bt_not_in_renderDoc d hwf h2
    · exact hqt (List.mem_reverse.mp
        ((List.dropWhile_sublist _).mem (List.mem_reverse.mp h1)))
  have hPb : '{' ∉ pre.dropWhile isWsChar :=
    fun hm => hpb ((List.dropWhile_sublist _).mem hm)
  have hQb : '}' ∉ (post.reverse.dropWhile isWsChar).reverse :=
    fun hm => hqb (List.mem_reverse.mp
      ((List.dropWhile_sublist _).mem (List.mem_reverse.mp hm)))
  have e1 : (pre.dropWhile isWsChar).dropWhile isWsChar = pre.dropWhile isWsChar :=
    dropWhile_idem _ _
  have e2 : ((((post.reverse.dropWhile isWsChar).reverse).reverse).dropWhile isWsChar).reverse
      = (post.reverse.dropWhile isWsChar).reverse := by
    rw [List.reverse_reverse, dropWhile_idem]
  simp only [parse_plan_json]
  rw [hblock]
  rw [pyStripL_around (by decide) (by decide)]
  rw [sub1_id _ _ _ hbt, sub2_id _ _ hbt]
  rw [pyStripL_around (by decide) (by decide), e1, e2]
  rw [extractBrace_exact (docBody d) hPb hQb]
  show (jsonLoads (renderDoc d)).bind buildPlan = some (planOfDoc d)
  rw [jsonLoads_renderDoc d hwf]
  show buildPlan (docJson d) = some (planOfDoc d)
  exact buildPlan_docJson d

theorem pyStripL_id_of {a b : Char} (ha : isWsChar a = false) (hb : isWsChar b = false)
    (mid : List Char) : pyStripL (a :: (mid ++ [b])) = a :: (mid ++ [b]) := by
  have h := pyStripL_around ha hb [] mid []
  simpa using h

theorem parse_fenced (d : PlanDoc) (hwf : wfDoc d) :
    parse_plan_json (String.mk
        ('`' :: '`' :: '`' :: 'j' :: 's' :: 'o' :: 'n' :: '\n'
          :: (renderDoc d ++ ['\n', '`', '`', '`']))) = some (planOfDoc d) := by
  have hshape : ('`' : Char) :: '`' :: '`' :: 'j' :: 's' :: 'o' :: 'n' :: '\n'
        :: (renderDoc d ++ ['\n', '`', '`', '`'])
      = '`' :: (('`' :: '`' :: 'j' :: 's' :: 'o' :: 'n' :: '\n'
          :: (renderDoc d ++ ['\n', '`', '`'])) ++ ['`']) := by
    simp [List.append_assoc]
  have h1 : pyStripL ('`' :: '`' :: '`' :: 'j' :: 's' :: 'o' :: 'n' :: '\n'
        :: (renderDoc d ++ ['\n', '`', '`', '`']))
      = '`' :: '`' :: '`' :: 'j' :: 's' :: 'o' :: 'n' :: '\n'
        :: (renderDoc d ++ ['\n', '`', '`', '`']) := by
    rw [hshape, pyStripL_id_of (by decide) (by decide)]
  have hshape2 : renderDoc d ++ ['\n', '`', '`', '`']
      = '{' :: ((docBody d ++ ['}']) ++ ['\n', '`', '`', '`']) := by
    simp [renderDoc, List.append_assoc]
  have hbt2 : '`' ∉ renderDoc d ++ ['\n'] := by
    intro hm
    rcases List.mem_append.mp hm with h | h
    · exact bt_not_in_renderDoc d hwf h
    · simp only [List.mem_singleton] at h
      cases h
  have h4 : pyStripL (renderDoc d ++ ['\n']) = renderDoc d := by
    have h := pyStripL_around (a := '{') (b := '}') (by decide) (by decide) [] (docBody d) ['\n']
    simp only [List.nil_append] at h
    rw [show ('{' : Char) :: (docBody d ++ ['}']) = renderDoc d from rfl] at h
    rw [h]
    have : List.dropWhile isWsChar ['\n'] = ([] : List Char) := by decide
    simp [this]
  have h5 : extractBrace (renderDoc d) = some ('{' :: (docBody d ++ ['}'])) := by
    have h := extractBrace_exact (p := []) (q := []) (docBody d) (by simp) (by simp)
    simp only [List.nil_append, List.append_nil] at h
    rw [show ('{' : Char) :: (docBody d ++ ['}']) = renderDoc d from rfl] at h
    exact h
  simp only [parse_plan_json]
  rw [h1]
  have hlen : (('`' : Char) :: '`' :: '`' :: 'j' :: 's' :: 'o' :: 'n' :: '\n'
        :: (renderDoc d ++ ['\n', '`', '`', '`'])).length
      = ((renderDoc d).length + 11) + 1 := by
    simp
  rw [hlen, hshape2, sub1_open, ← hshape2]
  rw [sub1_fence (renderDoc d) (bt_not_in_renderDoc d hwf) ((renderDoc d).length + 11)
    true (by omega)]
  rw [sub2_id _ _ hbt2, h4, h5]
  show (jsonLoads (renderDoc d)).bind buildPlan = some (planOfDoc d)
  rw [jsonLoads_renderDoc d hwf]
  show buildPlan (docJson d) = some (planOfDoc d)
  exact buildPlan_docJson d

/-- C3 counterexample: the round-trip is not robust to arbitrary trailing
prose.  This text holds one well-formed step object, but the prose after the
plan object contains braces, so the greedy `\{.*\}` span runs to the last `}`
of the prose, `json.loads` rejects it, and `_parse_plan_json` raises instead
of recovering the step. -/
theorem plan_roundtrip_counterexample :
    parse_plan_json "\x7b\"summary\":\"s\",\"steps\":[\x7b\"n\":1,\"description\":\"d\",\"tool\":\"run_cmd\"\x7d]\x7d\nNote: braces \x7blike these\x7d confuse it" = none := rfl

/-- C3 (corrected): for a well-formed plan document with N step objects
(safe strings, distinct keys), `_parse_plan_json` recovers a `Plan` with
exactly N steps whose `n`, `description`, `tool` and `args` fields match the
document (`args` defaulting to the empty mapping when absent), both for the
document wrapped in a markdown ```json fence and for the document surrounded
by prose — provided the leading prose holds no `{` and no backtick and the
trailing prose no `}` and no backtick; for arbitrary prose the claim fails
(trailing braces break the greedy span). -/
theorem plan_roundtrip (d : PlanDoc) (hwf : wfDoc d) (pre post : String)
    (hpre : '{' ∉ pre.data ∧ '`' ∉ pre.data)
    (hpost : '}' ∉ post.data ∧ '`' ∉ post.data) :
    (parse_plan_json (pre ++ String.mk (renderDoc d) ++ post) = some (planOfDoc d)
       ∧ parse_plan_json (String.mk ('`' :: '`' :: '`' :: 'j' :: 's' :: 'o' :: 'n' :: '\n'
           :: (renderDoc d ++ ['\n', '`', '`', '`']))) = some (planOfDoc d))
     ∧ (planOfDoc d).steps
         = d.steps.map (fun s => (⟨s.n, s.description, s.tool, s.args.getD []⟩ : PlanStep))
     ∧ (planOfDoc d).steps.length = d.steps.length := by
  refine ⟨⟨?_, parse_fenced d hwf⟩, rfl, by simp [planOfDoc]⟩
  rw [show pre ++ String.mk (renderDoc d) ++ post
      = String.mk (pre.data ++ renderDoc d ++ post.data) from rfl]
  exact parse_embedded d hwf pre.data post.data hpre.1 hpre.2 hpost.1 hpost.2

/-- Witness for the round-trip theorem: a two-step document (one step with an
`args` mapping, one without) surrounded by concrete prose. -/
theorem plan_roundtrip_witness :
    (wfDoc ⟨some "demo", [⟨1, "inspect", "read_file", some [("path", Json.str "app.py")]⟩,
        ⟨2, "test", "run_cmd", none⟩]⟩
      ∧ ('{' ∉ "Sure, here is the plan:\n".data ∧ '`' ∉ "Sure, here is the plan:\n".data)
      ∧ ('}' ∉ "\nShall I proceed?".data ∧ '`' ∉ "\nShall I proceed?".data))
    ∧ ((parse_plan_json ("Sure, here is the plan:\n"
          ++ String.mk (renderDoc ⟨some "demo",
              [⟨1, "inspect", "read_file", some [("path", Json.str "app.py")]⟩,
               ⟨2, "test", "run_cmd", none⟩]⟩) ++ "\nShall I proceed?")
        = some (planOfDoc ⟨some "demo",
            [⟨1, "inspect", "read_file", some [("path", Json.str "app.py")]⟩,
             ⟨2, "test", "run_cmd", none⟩]⟩)
       ∧ parse_plan_json (String.mk ('`' :: '`' :: '`' :: 'j' :: 's' :: 'o' :: 'n' :: '\n'
           :: (renderDoc ⟨some "demo",
              [⟨1, "inspect", "read_file", some [("path", Json.str "app.py")]⟩,
               ⟨2, "test", "run_cmd", none⟩]⟩ ++ ['\n', '`', '`', '`'])))
        = some (planOfDoc ⟨some "demo",
            [⟨1, "inspect", "read_file", some [("path", Json.str "app.py")]⟩,
             ⟨2, "test", "run_cmd", none⟩]⟩))
     ∧ (planOfDoc ⟨some "demo",
          [⟨1, "inspect", "read_file", some [("path", Json.str "app.py")]⟩,
           ⟨2, "test", "run_cmd", none⟩]⟩).steps
         = [⟨1, "inspect", "read_file", some [("path", Json.str "app.py")]⟩,
            (⟨2, "test", "run_cmd", none⟩ : StepDoc)].map
             (fun s => (⟨s.n, s.description, s.tool, s.args.getD []⟩ : PlanStep))
     ∧ (planOfDoc ⟨some "demo",
          [⟨1, "inspect", "read_file", some [("path", Json.str "app.py")]⟩,
           ⟨2, "test", "run_cmd", none⟩]⟩).steps.length
         = [⟨1, "inspect", "read_file", some [("path", Json.str "app.py")]⟩,
            (⟨2, "test", "run_cmd", none⟩ : StepDoc)].length) :=
  ⟨⟨by decide, ⟨by decide, by decide⟩, ⟨by decide, by decide⟩⟩,
   plan_roundtrip ⟨some "demo", [⟨1, "inspect", "read_file", some [("path", Json.str "app.py")]⟩,
       ⟨2, "test", "run_cmd", none⟩]⟩ (by decide) "Sure, here is the plan:\n" "\nShall I proceed?"
     ⟨by decide, by decide⟩ ⟨by decide, by decide⟩⟩
